import Mathlib

/-!
Verification of the `FullBinaryTree` container (C++ header, with a Go port of the
same algorithms).  The tree stores values at every node; a node owns either zero
or two children.  Public operations: `insert`, `remove`, `find`,
`isFullBinaryTree`, `getSize`, `isEmpty`, `clear`, and two serialization
encodings (binary and text).

Shallow embedding conventions:
* a `Node*` is modelled by the inductive `BTree` (`nil` = null pointer);
* the container (`root` pointer plus `size_t size` field) is the structure `FBT`;
* values (`template<typename T>`, instantiated at `int` by the test suites) are
  modelled as `Nat`;
* `size_t` is modelled as `Nat`; its wraparound at `2^64` (and below `0` in
  `size -= 2`) is not modelled — it is unreachable in every verified statement;
* each `while (!q.empty())` BFS loop is modelled by a structurally recursive
  function over the explicit queue, driven by a fuel argument; the wrapper
  passes a fuel value strictly larger than the number of loop iterations
  (`2 * (nodes in the queue) + (queue length)` shrinks at every iteration), so
  the fuel-exhaustion branch is unreachable;
* in-place pointer mutations found by a BFS are modelled by functional updates
  (`giveChildren`, `setData`, `prune`) at the position (list of left/right
  steps) reported by the corresponding scan;
* a text stream is modelled as the list of its whitespace-delimited tokens, a
  binary stream as the list of its bytes (each a `Nat`); `operator>>` into an
  integer is modelled by longest-digit-prefix parsing, with the C++11 behaviour
  of writing `0` on a failed extraction; the `size_t` extraction additionally
  accepts an optional leading sign (a `-` wraps the magnitude modulo `2^64`
  with no error) and on an out-of-range magnitude sets failbit and stores
  `ULLONG_MAX`.
-/

/-- A node of the tree: `Node { T data; Node* left; Node* right; }`.
`nil` stands for the null pointer. -/
inductive BTree where
  | nil : BTree
  | node (data : Nat) (left right : BTree) : BTree
deriving DecidableEq, Repr

namespace BTree

/-- Number of nodes reachable from this pointer. -/
def count : BTree → Nat
  | nil => 0
  | node _ l r => 1 + count l + count r

/-- Height of the pointed-to subtree (0 for null). -/
def depth : BTree → Nat
  | nil => 0
  | node _ l r => 1 + max (depth l) (depth r)

/-- Model of `isFullBinaryTreeHelper`: a null subtree passes; a node with
exactly one child fails; otherwise both children are checked recursively. -/
def isFull : BTree → Bool
  | nil => true
  | node _ nil (node ..) => false
  | node _ (node ..) nil => false
  | node _ l r => isFull l && isFull r

/-- The subtree reached from `t` by a list of steps (`false` = left,
`true` = right); `nil` once the walk leaves the tree. -/
def getAt : BTree → List Bool → BTree
  | t, [] => t
  | nil, _ :: _ => nil
  | node _ l _, false :: p => getAt l p
  | node _ _ r, true :: p => getAt r p

/-- The `data` field of the node at a position (0 if there is no node there). -/
def dataAt (t : BTree) (p : List Bool) : Nat :=
  match getAt t p with
  | node w _ _ => w
  | nil => 0

/-- Does this pointer point at a node with zero children? -/
def isLeaf : BTree → Bool
  | node _ nil nil => true
  | _ => false

/-- Functional image of `current->left = new Node(v); current->right = new Node(v);`
performed at the node at position `p` (the insert target, which has no
children when the assignment happens). -/
def giveChildren : BTree → List Bool → Nat → BTree
  | nil, _, _ => nil
  | node w _ _, [], v => node w (node v nil nil) (node v nil nil)
  | node w l r, false :: p, v => node w (giveChildren l p v) r
  | node w l r, true :: p, v => node w l (giveChildren r p v)

/-- Functional image of `parent->data = x` at position `p`. -/
def setData : BTree → List Bool → Nat → BTree
  | nil, _, _ => nil
  | node _ l r, [], x => node x l r
  | node w l r, false :: p, x => node w (setData l p x) r
  | node w l r, true :: p, x => node w l (setData r p x)

/-- Functional image of `delete parent->left; delete parent->right;
parent->left = parent->right = nullptr;` at position `p`: both child pointers
of the node at `p` are nulled, unlinking their entire subtrees. -/
def prune : BTree → List Bool → BTree
  | nil, _ => nil
  | node w _ _, [] => node w nil nil
  | node w l r, false :: p => node w (prune l p) r
  | node w l r, true :: p => node w l (prune r p)

/-- Structural membership of a value in the pointed-to subtree (specification
side predicate used to state "v is present in some node"). -/
def containsB : BTree → Nat → Bool
  | nil, _ => false
  | node w l r, v => (w == v) || containsB l v || containsB r v

/-- Bound used by the binary codec: every stored value fits in the four bytes
of a C++ `int`. -/
def valuesBounded : BTree → Bool
  | nil => true
  | node w l r => decide (w < 4294967296) && valuesBounded l && valuesBounded r

/-- Value-erasing skeleton, used to transport shape facts across `setData`. -/
def skel : BTree → BTree
  | nil => nil
  | node _ l r => node 0 (skel l) (skel r)


end BTree

open BTree

/-- The container: `Node* root; size_t size;`. -/
structure FBT where
  root : BTree
  size : Nat
deriving DecidableEq, Repr

/-- A default-constructed tree: `root(nullptr), size(0)`. -/
def emptyFBT : FBT := ⟨BTree.nil, 0⟩

/-- Model of `getSize()`. -/
def getSizeT (s : FBT) : Nat := s.size

/-- Model of `isEmpty()`. -/
def isEmptyT (s : FBT) : Bool := s.size == 0

/-- Model of `clear()`: all nodes destroyed, `root = nullptr`, `size = 0`. -/
def clearT (_ : FBT) : FBT := ⟨BTree.nil, 0⟩

/-- The nonnull children of a popped node, paired with their positions, in the
order the BFS loops push them (`if (left) push; if (right) push;`). -/
def childEntries (p : List Bool) (l r : BTree) : List (List Bool × BTree) :=
  (if l = BTree.nil then [] else [(p ++ [false], l)]) ++
  (if r = BTree.nil then [] else [(p ++ [true], r)])

/-- Total node count of the subtrees held in a BFS queue. -/
def sumCount : List (List Bool × BTree) → Nat
  | [] => 0
  | e :: rest => count e.2 + sumCount rest

/-- BFS loop of `insert`: pop a node; if it has no children it is the insert
target; otherwise push its nonnull children.  The fuel argument bounds the
number of iterations; `none` on fuel exhaustion is unreachable from the
wrapper. -/
def firstLeafF : Nat → List (List Bool × BTree) → Option (List Bool)
  | 0, _ => none
  | _ + 1, [] => none
  | f + 1, (_, BTree.nil) :: rest => firstLeafF f rest
  | f + 1, (p, BTree.node _ l r) :: rest =>
    if l = BTree.nil ∧ r = BTree.nil then some p
    else firstLeafF f (rest ++ childEntries p l r)

/-- BFS loop of the first scan of `remove`: pop `(node, parent)`; stop at the
first node whose `data` equals the searched value; otherwise push the nonnull
children.  Positions substitute for pointers: a node's parent is found by
dropping the last step of its position. -/
def findValF : Nat → List (List Bool × BTree) → Nat → Option (List Bool)
  | 0, _, _ => none
  | _ + 1, [], _ => none
  | f + 1, (_, BTree.nil) :: rest, v => findValF f rest v
  | f + 1, (p, BTree.node w l r) :: rest, v =>
    if w = v then some p else findValF f (rest ++ childEntries p l r) v

/-- BFS loop of the second scan of `remove`: traverse the whole tree,
remembering the last node seen that has no children ("rightmost leaf"),
pushing nonnull children as usual. -/
def lastLeafF : Nat → List (List Bool × BTree) → Option (List Bool) → Option (List Bool)
  | 0, _, acc => acc
  | _ + 1, [], acc => acc
  | f + 1, (_, BTree.nil) :: rest, acc => lastLeafF f rest acc
  | f + 1, (p, BTree.node _ l r) :: rest, acc =>
    lastLeafF f (rest ++ childEntries p l r)
      (if l = BTree.nil ∧ r = BTree.nil then some p else acc)

/-- BFS loop of `find`: pop a node, return true on the first `data` match,
push nonnull children. -/
def findScanF : Nat → List BTree → Nat → Bool
  | 0, _, _ => false
  | _ + 1, [], _ => false
  | f + 1, BTree.nil :: rest, v => findScanF f rest v
  | f + 1, BTree.node w l r :: rest, v =>
    if w = v then true
    else findScanF f
      (rest ++ (if l = BTree.nil then [] else [l]) ++ (if r = BTree.nil then [] else [r])) v

/-- Node positions in level order — the visit order of the BFS loops
(the order `print()` emits values).  Used to state "first … encountered in
level order". -/
def bfsListF : Nat → List (List Bool × BTree) → List (List Bool)
  | 0, _ => []
  | _ + 1, [] => []
  | f + 1, (_, BTree.nil) :: rest => bfsListF f rest
  | f + 1, (p, BTree.node _ l r) :: rest => p :: bfsListF f (rest ++ childEntries p l r)

/-- Fuel that strictly dominates the iteration count of every BFS loop above
when started on the singleton queue holding `t`. -/
def treeFuel (t : BTree) : Nat := 2 * count t + 2

/-- First node with zero children in level order (the insert target). -/
def firstLeafPos (t : BTree) : Option (List Bool) := firstLeafF (treeFuel t) [([], t)]

/-- Position of the first node holding `v` in level order. -/
def findValuePos (t : BTree) (v : Nat) : Option (List Bool) := findValF (treeFuel t) [([], t)] v

/-- Position of the last leaf encountered in a full level-order scan. -/
def lastLeafPos (t : BTree) : Option (List Bool) := lastLeafF (treeFuel t) [([], t)] none

/-- All node positions in level order. -/
def bfsPositions (t : BTree) : List (List Bool) := bfsListF (treeFuel t) [([], t)]

/-- Model of `insert(value)`: an empty tree gets a single root node and
`size = 1`; otherwise the first node with zero children found in level order
receives two children, both holding the inserted value, and `size += 2`. -/
def insertT (s : FBT) (v : Nat) : FBT :=
  match s.root with
  | BTree.nil => ⟨BTree.node v BTree.nil BTree.nil, 1⟩
  | r =>
    match firstLeafPos r with
    | some p => ⟨giveChildren r p v, s.size + 2⟩
    | none => s

/-- Model of `remove(value)`.  Not found: no-op.  Leaf target with a parent:
both of the parent's child pointers are deleted and nulled, `size -= 2`; leaf
target without a parent (sole root): the tree is cleared.  Internal target
(two children): a second full scan finds the last leaf in level order and its
parent; if that leaf is distinct from the target, the target's `data` is
overwritten with the leaf's `data`, then (if the leaf has a parent) that
parent's two child pointers are deleted and nulled and `size -= 2`.  A
one-child target falls through both branches and nothing happens. -/
def removeT (s : FBT) (v : Nat) : FBT :=
  match s.root with
  | BTree.nil => s
  | r =>
    match findValuePos r v with
    | none => s
    | some pt =>
      match getAt r pt with
      | BTree.node _ BTree.nil BTree.nil =>
        if pt = [] then ⟨BTree.nil, 0⟩
        else ⟨prune r pt.dropLast, s.size - 2⟩
      | BTree.node _ (BTree.node ..) (BTree.node ..) =>
        match lastLeafPos r with
        | none => s
        | some pr =>
          if pr = pt then s
          else
            let t1 := setData r pt (dataAt r pr)
            if pr = [] then ⟨t1, s.size⟩
            else ⟨prune t1 pr.dropLast, s.size - 2⟩
      | _ => s

/-- Model of `find(value)`: level-order scan, true on first match. -/
def findT (s : FBT) (v : Nat) : Bool :=
  match s.root with
  | BTree.nil => false
  | r => findScanF (treeFuel r) [r] v

/-- Model of `isFullBinaryTree()`. -/
def isFullT (s : FBT) : Bool := isFull s.root

/-- A public mutation of the container. -/
inductive Op where
  | ins (v : Nat)
  | rem (v : Nat)
  | clr
deriving DecidableEq, Repr

/-- Apply one public mutation. -/
def applyOp (s : FBT) : Op → FBT
  | Op.ins v => insertT s v
  | Op.rem v => removeT s v
  | Op.clr => clearT s

/-- Run a sequence of public mutations on an initially empty tree. -/
def runOps (ops : List Op) : FBT := ops.foldl applyOp emptyFBT

/-! ### Text serialization

`serializeText` prints `size`, a newline, then the preorder token stream in
which an absent child is the literal token `null`; `deserializeText` clears the
tree, reads `size` with `in >> new_size`, and rebuilds the tree from the
remaining tokens with `deserializeHelper` (a failed token read or the token
`null` yields a null child). -/

/-- Model of reading one character of an integer with `operator>>`: the
characters `0`-`9` carry their value, anything else stops the extraction. -/
def charDigit (c : Char) : Option Nat :=
  if c.isDigit then some (c.toNat - 48) else none

/-- Longest digit prefix of a token together with the unconsumed characters. -/
def takeDigits : List Char → List Nat × List Char
  | [] => ([], [])
  | c :: cs =>
    match charDigit c with
    | none => ([], c :: cs)
    | some d =>
      let p := takeDigits cs
      (d :: p.1, p.2)

/-- Value of a big-endian digit list, as accumulated by `operator>>`. -/
def digitsVal (ds : List Nat) : Nat := ds.foldl (fun a d => a * 10 + d) 0

/-- Character printed for one decimal digit by `operator<<`. -/
def digitChar (d : Nat) : Char := Char.ofNat (48 + d)

/-- Decimal representation of a value, as printed by `out << node->data`. -/
def natToken (n : Nat) : String :=
  if n = 0 then "0" else String.mk (((Nat.digits 10 n).reverse).map digitChar)

/-- Model of `istringstream iss(token); iss >> value;`: the longest digit
prefix of the token, 0 when the extraction fails (C++11 semantics). -/
def tokenValue (t : String) : Nat := digitsVal (takeDigits t.data).1

/-- Optional sign accepted by the `size_t` extraction of `operator>>`: a
leading `-` marks the magnitude for negation modulo `2^64`, a leading `+` is
consumed and ignored. -/
def signSplit (cs : List Char) : Bool × List Char :=
  match cs with
  | [] => (false, [])
  | c :: cs2 =>
    if c = '-' then (true, cs2)
    else if c = '+' then (false, cs2) else (false, c :: cs2)

/-- Result of the `in >> new_size` extraction: the value stored into
`new_size`, whether failbit was set, and the unconsumed token stream. -/
structure SizeRead where
  val : Nat
  failed : Bool
  rest : List String
deriving DecidableEq, Repr

/-- Model of `in >> new_size` for the 8-byte unsigned `size_t` on a tokenized
stream, with C++11 `num_get` semantics: an exhausted stream, or a token whose
(sign-stripped) head carries no digits, fails the extraction and stores 0; a
magnitude of `2^64` or more fails and stores `ULLONG_MAX`; otherwise the
extraction succeeds — a leading `-` negating the magnitude modulo `2^64` with
no error — and unconsumed trailing characters of the token are pushed back.
A set failbit makes every later read of the stream fail. -/
def readSizeToks : List String → SizeRead
  | [] => ⟨0, true, []⟩
  | t :: rest =>
    match signSplit t.data with
    | (neg, cs) =>
      match takeDigits cs with
      | ([], _) => ⟨0, true, rest⟩
      | (d :: ds, leftover) =>
        if digitsVal (d :: ds) < 18446744073709551616 then
          ⟨if neg then (18446744073709551616 - digitsVal (d :: ds)) % 18446744073709551616
            else digitsVal (d :: ds),
            false,
            if leftover = [] then rest else String.mk leftover :: rest⟩
        else ⟨18446744073709551615, true, rest⟩

/-- Token stream emitted by `serializeHelper`: preorder, `null` for an absent
child. -/
def serializeHelperT : BTree → List String
  | BTree.nil => ["null"]
  | BTree.node w l r => natToken w :: (serializeHelperT l ++ serializeHelperT r)

/-- Model of `serializeText`: the size token followed by the preorder stream.
(The newlines it prints are token separators and do not appear in the token
list.) -/
def serializeTextT (s : FBT) : List String :=
  natToken s.size :: serializeHelperT s.root

/-- Model of `deserializeHelper`: read a token; a failed read or the token
`null` gives a null child; otherwise build a node from the token's value and
recurse for the left then the right subtree.  The fuel argument bounds the
recursion depth; the wrapper passes more fuel than there are tokens, and each
level consumes a token first, so fuel exhaustion is unreachable. -/
def dHelperF : Nat → List String → BTree × List String
  | 0, ts => (BTree.nil, ts)
  | _ + 1, [] => (BTree.nil, [])
  | f + 1, t :: ts =>
    if t = "null" then (BTree.nil, ts)
    else
      let pl := dHelperF f ts
      let pr := dHelperF f pl.2
      (BTree.node (tokenValue t) pl.1 pr.1, pr.2)

/-- `deserializeHelper` started on a token stream. -/
def dHelper (ts : List String) : BTree × List String := dHelperF (ts.length + 1) ts

/-- Model of `deserializeText`: clear, read `size` from the stream (a failed
extraction stores its C++11 failure value — 0, or `ULLONG_MAX` when out of
range — and makes every later token read fail, so no node is built), then
rebuild `root` from the remaining tokens. -/
def deserializeTextT (toks : List String) : FBT :=
  match readSizeToks toks with
  | ⟨n, true, _⟩ => ⟨BTree.nil, n⟩
  | ⟨n, false, rest⟩ => ⟨(dHelper rest).1, n⟩

/-! ### Binary serialization

`serializeBinary` writes the 8 `size_t` bytes of `size`, then a preorder
stream of records: a 1-byte `is_null` flag, followed (for a present node) by
the `sizeof(T) = 4` bytes of the value and the records of the two subtrees.
Multi-byte integers are little-endian. -/

/-- Little-endian byte encoding of `n` in `w` bytes. -/
def encLE : Nat → Nat → List Nat
  | 0, _ => []
  | w + 1, n => n % 256 :: encLE w (n / 256)

/-- Little-endian byte decoding of `w` bytes (a truncated read leaves 0, a
state unreachable in the verified statements). -/
def decLE : Nat → List Nat → Nat × List Nat
  | 0, bs => (0, bs)
  | _ + 1, [] => (0, [])
  | w + 1, b :: bs =>
    let p := decLE w bs
    (b + 256 * p.1, p.2)

/-- Byte stream emitted by `serializeBinaryHelper`: flag byte 1 for a null
child, else flag byte 0 followed by the value bytes and both subtrees. -/
def serializeBinaryHelperT : BTree → List Nat
  | BTree.nil => [1]
  | BTree.node w l r =>
    0 :: (encLE 4 w ++ (serializeBinaryHelperT l ++ serializeBinaryHelperT r))

/-- Model of `serializeBinary`: the size bytes then the preorder records. -/
def serializeBinaryT (s : FBT) : List Nat :=
  encLE 8 s.size ++ serializeBinaryHelperT s.root

/-- Model of `deserializeBinaryHelper` (fuel-driven like `dHelperF`): read the
flag byte (a failed read behaves like a null record); a nonzero flag is a null
child; otherwise read the value bytes and recurse for both subtrees. -/
def dBinHelperF : Nat → List Nat → BTree × List Nat
  | 0, bs => (BTree.nil, bs)
  | _ + 1, [] => (BTree.nil, [])
  | f + 1, b :: bs =>
    if b ≠ 0 then (BTree.nil, bs)
    else
      let pv := decLE 4 bs
      let pl := dBinHelperF f pv.2
      let pr := dBinHelperF f pl.2
      (BTree.node pv.1 pl.1 pr.1, pr.2)

/-- Model of `deserializeBinary`: clear, read the 8 size bytes, then rebuild
`root` from the remaining bytes. -/
def deserializeBinaryT (bs : List Nat) : FBT :=
  let p := decLE 8 bs
  ⟨(dBinHelperF (p.2.length + 1) p.2).1, p.1⟩

/-- Sufficient fuel for a BFS loop: the quantity `2 * sumCount q + q.length`
strictly decreases at every iteration, so it bounds the iteration count. -/
def FuelOK (f : Nat) (q : List (List Bool × BTree)) : Prop :=
  2 * sumCount q + q.length < f

/-- Every queue entry is the subtree of `t` at its recorded position, and is
nonnull (the loops only ever push nonnull children). -/
def EntriesValid (t : BTree) (q : List (List Bool × BTree)) : Prop :=
  ∀ e ∈ q, getAt t e.1 = e.2 ∧ e.2 ≠ BTree.nil


/-- Sibling pairs as the BFS pushes them: entries come two at a time, a node's
left child directly followed by its right child, both nonnull. -/
inductive Paired (t : BTree) : List (List Bool × BTree) → Prop
  | nil : Paired t []
  | cons (p : List Bool) (w : Nat) (l r : BTree) (rest : List (List Bool × BTree)) :
      getAt t p = BTree.node w l r → l ≠ BTree.nil → r ≠ BTree.nil →
      Paired t rest → Paired t ((p ++ [false], l) :: ((p ++ [true], r) :: rest))

/-- Queue shapes reachable by the second `remove` scan. -/
inductive QS (t : BTree) : List (List Bool × BTree) → Prop
  | root : t ≠ BTree.nil → QS t [([], t)]
  | paired (q : List (List Bool × BTree)) : Paired t q → QS t q
  | dangling (p : List Bool) (w : Nat) (l r : BTree) (q2 : List (List Bool × BTree)) :
      getAt t p = BTree.node w l r → l ≠ BTree.nil → r ≠ BTree.nil →
      Paired t q2 → (isLeaf l = true ∨ q2 ≠ []) →
      QS t ((p ++ [true], r) :: q2)

/-- What the second scan guarantees about the position it reports: it holds a
leaf, and it is either the root or a right child whose left sibling is also a
leaf. -/
def GoodPr (t : BTree) (pr : List Bool) : Prop :=
  isLeaf (getAt t pr) = true ∧
    (pr = [] ∨ ∃ pp, pr = pp ++ [true] ∧ getAt t pp ≠ BTree.nil ∧
      isLeaf (getAt t (pp ++ [false])) = true)


/-! ### Basic facts about positions and the functional updates -/

namespace BTree

theorem getAt_nil (p : List Bool) : getAt nil p = nil := by
  cases p <;> rfl

@[simp] theorem getAt_nilPos (t : BTree) : getAt t [] = t := by
  cases t <;> rfl

theorem getAt_append (t : BTree) (p q : List Bool) :
    getAt t (p ++ q) = getAt (getAt t p) q := by
  induction p generalizing t with
  | nil => simp
  | cons d p ih =>
    cases t with
    | nil => cases d <;> simp [getAt, getAt_nil]
    | node w l r => cases d <;> simp [getAt, ih]

theorem isFull_node_iff {w : Nat} {l r : BTree} :
    isFull (node w l r) = true ↔
      (l = nil ∧ r = nil) ∨
      (l ≠ nil ∧ r ≠ nil ∧ isFull l = true ∧ isFull r = true) := by
  cases l <;> cases r <;> simp [isFull]

theorem isFull_getAt {t : BTree} (h : isFull t = true) (p : List Bool) :
    isFull (getAt t p) = true := by
  induction p generalizing t with
  | nil => simpa using h
  | cons d p ih =>
    cases t with
    | nil => cases d <;> simp [getAt, getAt_nil, isFull]
    | node w l r =>
      rcases isFull_node_iff.mp h with ⟨hl, hr⟩ | ⟨_, _, hl, hr⟩
      · subst hl; subst hr
        cases d <;> simpa [getAt, getAt_nil] using ih (t := nil) (by simp [isFull])
      · cases d
        · simpa [getAt] using ih hl
        · simpa [getAt] using ih hr

theorem count_getAt_le (t : BTree) (p : List Bool) : count (getAt t p) ≤ count t := by
  induction p generalizing t with
  | nil => simp
  | cons d p ih =>
    cases t with
    | nil => simp [getAt, getAt_nil]
    | node w l r =>
      cases d
      · simpa [getAt, count] using Nat.le_trans (ih l) (by omega)
      · simpa [getAt, count] using Nat.le_trans (ih r) (by omega)

theorem skel_eq_nil_iff {t : BTree} : skel t = nil ↔ t = nil := by
  cases t <;> simp [skel]

theorem count_skel (t : BTree) : count (skel t) = count t := by
  induction t with
  | nil => rfl
  | node w l r ihl ihr => simp [skel, count, ihl, ihr]

theorem getAt_skel (t : BTree) (p : List Bool) : getAt (skel t) p = skel (getAt t p) := by
  induction p generalizing t with
  | nil => simp
  | cons d p ih =>
    cases t with
    | nil => cases d <;> simp [skel, getAt, getAt_nil]
    | node w l r => cases d <;> simp [skel, getAt, ih]

theorem isLeaf_skel (t : BTree) : isLeaf (skel t) = isLeaf t := by
  cases t with
  | nil => rfl
  | node w l r => cases l <;> cases r <;> simp [skel, isLeaf]

theorem skel_setData (t : BTree) (q : List Bool) (x : Nat) :
    skel (setData t q x) = skel t := by
  induction t generalizing q with
  | nil => cases q <;> rfl
  | node w l r ihl ihr =>
    cases q with
    | nil => simp [setData, skel]
    | cons d q => cases d <;> simp [setData, skel, ihl, ihr]

theorem count_setData (t : BTree) (q : List Bool) (x : Nat) :
    count (setData t q x) = count t := by
  rw [← count_skel, skel_setData, count_skel]

theorem count_getAt_setData (t : BTree) (q p : List Bool) (x : Nat) :
    count (getAt (setData t q x) p) = count (getAt t p) := by
  rw [← count_skel, ← getAt_skel, skel_setData, getAt_skel, count_skel]

theorem isLeaf_getAt_setData (t : BTree) (q p : List Bool) (x : Nat) :
    isLeaf (getAt (setData t q x) p) = isLeaf (getAt t p) := by
  rw [← isLeaf_skel, ← getAt_skel, skel_setData, getAt_skel, isLeaf_skel]

theorem getAt_setData_eq_nil_iff {t : BTree} {q p : List Bool} {x : Nat} :
    getAt (setData t q x) p = nil ↔ getAt t p = nil := by
  rw [← skel_eq_nil_iff, ← getAt_skel, skel_setData, getAt_skel, skel_eq_nil_iff]

theorem setData_eq_nil_iff {t : BTree} {q : List Bool} {x : Nat} :
    setData t q x = nil ↔ t = nil := by
  cases t with
  | nil => cases q <;> simp [setData]
  | node w l r => cases q with
    | nil => simp [setData]
    | cons d q => cases d <;> simp [setData]

theorem isFull_setData {t : BTree} (h : isFull t = true) (q : List Bool) (x : Nat) :
    isFull (setData t q x) = true := by
  induction t generalizing q with
  | nil => cases q <;> simpa [setData] using h
  | node w l r ihl ihr =>
    cases q with
    | nil => simpa [setData, isFull_node_iff] using h
    | cons d q =>
      rcases isFull_node_iff.mp h with ⟨hl, hr⟩ | ⟨hl, hr, hfl, hfr⟩
      · subst hl; subst hr
        cases d <;> simp [setData, isFull]
      · cases d
        · simp only [setData]
          exact isFull_node_iff.mpr (Or.inr
            ⟨fun hc => hl (setData_eq_nil_iff.mp hc), hr, ihl hfl q, hfr⟩)
        · simp only [setData]
          exact isFull_node_iff.mpr (Or.inr
            ⟨hl, fun hc => hr (setData_eq_nil_iff.mp hc), hfl, ihr hfr q⟩)

theorem dataAt_setData_self {t : BTree} {q : List Bool} (h : getAt t q ≠ nil) (x : Nat) :
    dataAt (setData t q x) q = x := by
  induction q generalizing t with
  | nil =>
    cases t with
    | nil => simp at h
    | node w l r => simp [setData, dataAt, getAt]
  | cons d q ih =>
    cases t with
    | nil => simp [getAt_nil] at h
    | node w l r =>
      cases d
      · simpa [setData, dataAt, getAt] using ih (by simpa [getAt] using h)
      · simpa [setData, dataAt, getAt] using ih (by simpa [getAt] using h)

theorem prune_ne_nil {t : BTree} (h : t ≠ nil) (p : List Bool) : prune t p ≠ nil := by
  cases t with
  | nil => exact absurd rfl h
  | node w l r =>
    cases p with
    | nil => simp [prune]
    | cons d q => cases d <;> simp [prune]

theorem isFull_prune {t : BTree} (h : isFull t = true) (p : List Bool) :
    isFull (prune t p) = true := by
  induction p generalizing t with
  | nil =>
    cases t with
    | nil => simpa [prune] using h
    | node w l r => simp [prune, isFull]
  | cons d p ih =>
    cases t with
    | nil => simpa [prune] using h
    | node w l r =>
      rcases isFull_node_iff.mp h with ⟨hl, hr⟩ | ⟨hl, hr, hfl, hfr⟩
      · subst hl; subst hr
        cases d <;> simp [prune, isFull]
      · cases d
        · simp only [prune]
          exact isFull_node_iff.mpr (Or.inr ⟨prune_ne_nil hl p, hr, ih hfl, hfr⟩)
        · simp only [prune]
          exact isFull_node_iff.mpr (Or.inr ⟨hl, prune_ne_nil hr p, hfl, ih hfr⟩)

theorem count_prune (t : BTree) (p : List Bool) :
    count (prune t p) + count (getAt t (p ++ [false])) + count (getAt t (p ++ [true])) =
      count t := by
  induction p generalizing t with
  | nil =>
    cases t with
    | nil => simp [prune, getAt, getAt_nil, count]
    | node w l r => simp [prune, getAt, count]
  | cons d p ih =>
    cases t with
    | nil => simp [prune, getAt_nil, count]
    | node w l r =>
      cases d
      · have h1 := ih l
        have e1 : ((false :: p) ++ [false] : List Bool) = false :: (p ++ [false]) := rfl
        have e2 : ((false :: p) ++ [true] : List Bool) = false :: (p ++ [true]) := rfl
        rw [e1, e2]
        simp only [prune, getAt, count]
        omega
      · have h1 := ih r
        have e1 : ((true :: p) ++ [false] : List Bool) = true :: (p ++ [false]) := rfl
        have e2 : ((true :: p) ++ [true] : List Bool) = true :: (p ++ [true]) := rfl
        rw [e1, e2]
        simp only [prune, getAt, count]
        omega

theorem getAt_prune_self {t : BTree} {p : List Bool} (h : getAt t p ≠ nil) :
    ∃ w, getAt (prune t p) p = node w nil nil := by
  induction p generalizing t with
  | nil =>
    cases t with
    | nil => simp at h
    | node w l r => exact ⟨w, by simp [prune]⟩
  | cons d p ih =>
    cases t with
    | nil => simp [getAt_nil] at h
    | node w l r =>
      cases d
      · simpa [prune, getAt] using ih (by simpa [getAt] using h)
      · simpa [prune, getAt] using ih (by simpa [getAt] using h)

/-- Positions that are not strictly below the pruned node keep their data and
their presence. -/
theorem prune_preserve {t : BTree} {p q : List Bool} (h : ∀ d rest, q ≠ p ++ d :: rest) :
    dataAt (prune t p) q = dataAt t q ∧
      (getAt (prune t p) q = nil ↔ getAt t q = nil) := by
  induction p generalizing t q with
  | nil =>
    cases t with
    | nil => simp [prune]
    | node w l r =>
      cases q with
      | nil => simp [prune, dataAt]
      | cons d q => exact absurd rfl (h d q)
  | cons d p ih =>
    cases t with
    | nil => simp [prune]
    | node w l r =>
      cases q with
      | nil => cases d <;> simp [prune, dataAt]
      | cons d2 q =>
        have hsub : d2 = d → ∀ e rest, q ≠ p ++ e :: rest := by
          intro hd e rest hc
          exact h e rest (by simp [hc, hd])
        cases d <;> cases d2
        · simpa [prune, dataAt, getAt] using ih (hsub rfl)
        · simp [prune, dataAt, getAt]
        · simp [prune, dataAt, getAt]
        · simpa [prune, dataAt, getAt] using ih (hsub rfl)

theorem giveChildren_ne_nil {t : BTree} (h : t ≠ nil) (p : List Bool) (v : Nat) :
    giveChildren t p v ≠ nil := by
  cases t with
  | nil => exact absurd rfl h
  | node w l r => cases p with
    | nil => simp [giveChildren]
    | cons d q => cases d <;> simp [giveChildren]

theorem isFull_giveChildren {t : BTree} (h : isFull t = true) (p : List Bool) (v : Nat) :
    isFull (giveChildren t p v) = true := by
  induction p generalizing t with
  | nil =>
    cases t with
    | nil => simpa [giveChildren] using h
    | node w l r => simp [giveChildren, isFull]
  | cons d p ih =>
    cases t with
    | nil => simpa [giveChildren] using h
    | node w l r =>
      rcases isFull_node_iff.mp h with ⟨hl, hr⟩ | ⟨hl, hr, hfl, hfr⟩
      · subst hl; subst hr
        cases d <;> simp [giveChildren, isFull]
      · cases d
        · simp only [giveChildren]
          exact isFull_node_iff.mpr (Or.inr ⟨giveChildren_ne_nil hl p v, hr, ih hfl, hfr⟩)
        · simp only [giveChildren]
          exact isFull_node_iff.mpr (Or.inr ⟨hl, giveChildren_ne_nil hr p v, hfl, ih hfr⟩)

theorem count_giveChildren {t : BTree} {p : List Bool} {w : Nat}
    (h : getAt t p = node w nil nil) (v : Nat) :
    count (giveChildren t p v) = count t + 2 := by
  induction p generalizing t with
  | nil =>
    have : t = node w nil nil := by simpa using h
    subst this
    simp [giveChildren, count]
  | cons d p ih =>
    cases t with
    | nil => simp [getAt_nil] at h
    | node w2 l r =>
      cases d
      · have := ih (t := l) (by simpa [getAt] using h)
        simp only [giveChildren, count]
        omega
      · have := ih (t := r) (by simpa [getAt] using h)
        simp only [giveChildren, count]
        omega

theorem getAt_giveChildren_children {t : BTree} {p : List Bool} (h : getAt t p ≠ nil)
    (v : Nat) :
    getAt (giveChildren t p v) (p ++ [false]) = node v nil nil ∧
      getAt (giveChildren t p v) (p ++ [true]) = node v nil nil := by
  induction p generalizing t with
  | nil =>
    cases t with
    | nil => simp at h
    | node w l r => simp [giveChildren, getAt]
  | cons d p ih =>
    cases t with
    | nil => simp [getAt_nil] at h
    | node w l r =>
      cases d
      · simpa [giveChildren, getAt] using ih (by simpa [getAt] using h)
      · simpa [giveChildren, getAt] using ih (by simpa [getAt] using h)

/-- Nodes other than the two freshly attached children are unchanged by the
insertion update. -/
theorem giveChildren_other {t : BTree} {p : List Bool} {v : Nat}
    (hleaf : isLeaf (getAt t p) = true) :
    ∀ q, q ≠ p ++ [false] → q ≠ p ++ [true] →
      dataAt (giveChildren t p v) q = dataAt t q ∧
        (getAt (giveChildren t p v) q = nil ↔ getAt t q = nil) := by
  induction p generalizing t with
  | nil =>
    intro q h1 h2
    have ht : ∃ w, t = node w nil nil := by
      cases t with
      | nil => simp [isLeaf] at hleaf
      | node w l r =>
        refine ⟨w, ?_⟩
        cases l <;> cases r <;> simp [isLeaf] at hleaf <;> rfl
    rcases ht with ⟨w, rfl⟩
    cases q with
    | nil => simp [giveChildren, dataAt]
    | cons d q =>
      cases q with
      | nil =>
        cases d
        · exact absurd rfl h1
        · exact absurd rfl h2
      | cons d2 q => cases d <;> cases d2 <;> simp [giveChildren, dataAt, getAt, getAt_nil]
  | cons d p ih =>
    intro q h1 h2
    cases t with
    | nil => simp [getAt_nil, isLeaf] at hleaf
    | node w l r =>
      cases q with
      | nil => cases d <;> simp [giveChildren, dataAt]
      | cons d2 q =>
        have hsub : d2 = d → (q ≠ p ++ [false] ∧ q ≠ p ++ [true]) := by
          intro hd
          constructor
          · intro hc; exact h1 (by simp [hc, hd])
          · intro hc; exact h2 (by simp [hc, hd])
        cases d <;> cases d2
        · simpa [giveChildren, dataAt, getAt] using
            ih (by simpa [getAt] using hleaf) q (hsub rfl).1 (hsub rfl).2
        · simp [giveChildren, dataAt, getAt]
        · simp [giveChildren, dataAt, getAt]
        · simpa [giveChildren, dataAt, getAt] using
            ih (by simpa [getAt] using hleaf) q (hsub rfl).1 (hsub rfl).2

end BTree

/-! ### Facts about the BFS scans -/

theorem sumCount_append (q1 q2 : List (List Bool × BTree)) :
    sumCount (q1 ++ q2) = sumCount q1 + sumCount q2 := by
  induction q1 with
  | nil => simp [sumCount]
  | cons e q ih => simp [sumCount, ih]; omega

theorem childEntries_mem {p : List Bool} {l r : BTree} {e : List Bool × BTree}
    (h : e ∈ childEntries p l r) :
    (e = (p ++ [false], l) ∧ l ≠ BTree.nil) ∨ (e = (p ++ [true], r) ∧ r ≠ BTree.nil) := by
  by_cases hl : l = BTree.nil <;> by_cases hr : r = BTree.nil <;>
    simp [childEntries, hl, hr] at h <;> tauto

theorem childEntries_sumCount (p : List Bool) (l r : BTree) :
    sumCount (childEntries p l r) = count l + count r := by
  by_cases hl : l = BTree.nil <;> by_cases hr : r = BTree.nil <;>
    simp [childEntries, hl, hr, sumCount, count] <;> omega

theorem childEntries_length_le (p : List Bool) (l r : BTree) :
    (childEntries p l r).length ≤ 2 := by
  by_cases hl : l = BTree.nil <;> by_cases hr : r = BTree.nil <;>
    simp [childEntries, hl, hr]

theorem childEntries_ne_nil {p : List Bool} {l r : BTree} (h : ¬(l = BTree.nil ∧ r = BTree.nil)) :
    childEntries p l r ≠ [] := by
  by_cases hl : l = BTree.nil <;> by_cases hr : r = BTree.nil <;>
    simp [childEntries, hl, hr] <;> tauto

theorem fuelOK_tail {f : Nat} {e : List Bool × BTree} {q : List (List Bool × BTree)}
    (h : FuelOK (f + 1) (e :: q)) : FuelOK f q := by
  simp only [FuelOK, sumCount, List.length_cons] at h ⊢
  omega

theorem fuelOK_push {f : Nat} {p : List Bool} {w : Nat} {l r : BTree}
    {q : List (List Bool × BTree)} (h : FuelOK (f + 1) ((p, BTree.node w l r) :: q)) :
    FuelOK f (q ++ childEntries p l r) := by
  have hlen := childEntries_length_le p l r
  simp only [FuelOK, sumCount, List.length_cons, List.length_append,
    sumCount_append, childEntries_sumCount, count] at h ⊢
  omega

theorem fuelOK_init (t : BTree) : FuelOK (treeFuel t) [([], t)] := by
  simp [FuelOK, sumCount, treeFuel]

theorem entriesValid_tail {t : BTree} {e : List Bool × BTree} {q : List (List Bool × BTree)}
    (h : EntriesValid t (e :: q)) : EntriesValid t q :=
  fun e2 he2 => h e2 (List.mem_cons_of_mem _ he2)

theorem entriesValid_push {t : BTree} {p : List Bool} {w : Nat} {l r : BTree}
    {q : List (List Bool × BTree)} (h : EntriesValid t ((p, BTree.node w l r) :: q)) :
    EntriesValid t (q ++ childEntries p l r) := by
  intro e he
  rcases List.mem_append.mp he with hq | hc
  · exact h e (List.mem_cons_of_mem _ hq)
  · have hp := (h _ (List.mem_cons_self _ _)).1
    rcases childEntries_mem hc with ⟨rfl, hne⟩ | ⟨rfl, hne⟩
    · refine ⟨?_, hne⟩
      rw [getAt_append, hp]
      simp [getAt]
    · refine ⟨?_, hne⟩
      rw [getAt_append, hp]
      simp [getAt]

theorem entriesValid_init {t : BTree} (h : t ≠ BTree.nil) : EntriesValid t [([], t)] := by
  intro e he
  simp at he
  subst he
  exact ⟨by simp, h⟩

theorem entriesNonnil_push {p : List Bool} {w : Nat} {l r : BTree}
    {q : List (List Bool × BTree)} (h : ∀ e ∈ ((p, BTree.node w l r) :: q), e.2 ≠ BTree.nil) :
    ∀ e ∈ q ++ childEntries p l r, e.2 ≠ BTree.nil := by
  intro e he
  rcases List.mem_append.mp he with hq | hc
  · exact h e (List.mem_cons_of_mem _ hq)
  · rcases childEntries_mem hc with ⟨rfl, hne⟩ | ⟨rfl, hne⟩ <;> exact hne

/-- The insert scan finds a target whenever its queue is nonempty (fullness is
not needed: a popped non-leaf pushes at least one nonnull child). -/
theorem firstLeafF_exists :
    ∀ (f : Nat) (q : List (List Bool × BTree)), FuelOK f q →
      (∀ e ∈ q, e.2 ≠ BTree.nil) → q ≠ [] → ∃ p, firstLeafF f q = some p := by
  intro f
  induction f with
  | zero =>
    intro q hf
    exact absurd hf (by simp [FuelOK])
  | succ f ih =>
    intro q hf hnn hne
    match q with
    | [] => exact absurd rfl hne
    | (p, BTree.nil) :: rest =>
      exact absurd rfl (hnn _ (List.mem_cons_self _ _))
    | (p, BTree.node w l r) :: rest =>
      by_cases hlr : l = BTree.nil ∧ r = BTree.nil
      · exact ⟨p, by simp [firstLeafF, hlr]⟩
      · have hq2 : rest ++ childEntries p l r ≠ [] := by
          intro hc
          exact childEntries_ne_nil hlr (List.append_eq_nil.mp hc).2
        have ⟨p2, hp2⟩ := ih _ (fuelOK_push hf) (entriesNonnil_push hnn) hq2
        exact ⟨p2, by simpa [firstLeafF, hlr] using hp2⟩

/-- The insert scan's result is a node with zero children. -/
theorem firstLeafF_sound {t : BTree} :
    ∀ (f : Nat) (q : List (List Bool × BTree)) (p : List Bool), EntriesValid t q →
      firstLeafF f q = some p → isLeaf (getAt t p) = true := by
  intro f
  induction f with
  | zero => intro q p _ hc; simp [firstLeafF] at hc
  | succ f ih =>
    intro q p hv hr
    match q with
    | [] => simp [firstLeafF] at hr
    | (pe, BTree.nil) :: rest =>
      exact absurd rfl ((hv _ (List.mem_cons_self _ _)).2)
    | (pe, BTree.node w l r) :: rest =>
      by_cases hlr : l = BTree.nil ∧ r = BTree.nil
      · have : pe = p := by simpa [firstLeafF, hlr] using hr
        subst this
        have := (hv _ (List.mem_cons_self _ _)).1
        rw [this, hlr.1, hlr.2]
        simp [isLeaf]
      · exact ih _ p (entriesValid_push hv) (by simpa [firstLeafF, hlr] using hr)

/-- The insert scan returns the first position in level order whose node has
zero children. -/
theorem firstLeafF_eq_find {t : BTree} :
    ∀ (f : Nat) (q : List (List Bool × BTree)), EntriesValid t q →
      firstLeafF f q = (bfsListF f q).find? (fun p => isLeaf (getAt t p)) := by
  intro f
  induction f with
  | zero => intro q _; simp [firstLeafF, bfsListF]
  | succ f ih =>
    intro q hv
    match q with
    | [] => simp [firstLeafF, bfsListF]
    | (pe, BTree.nil) :: rest =>
      exact absurd rfl ((hv _ (List.mem_cons_self _ _)).2)
    | (pe, BTree.node w l r) :: rest =>
      have hpe := (hv _ (List.mem_cons_self _ _)).1
      by_cases hlr : l = BTree.nil ∧ r = BTree.nil
      · have hleaf : isLeaf (getAt t pe) = true := by
          rw [hpe, hlr.1, hlr.2]; simp [isLeaf]
        simp [firstLeafF, bfsListF, hlr, List.find?_cons_of_pos, hleaf]
      · have hleaf : isLeaf (getAt t pe) = false := by
          rw [hpe]
          cases l <;> cases r <;> simp [isLeaf] at hlr ⊢ <;> tauto
        rw [show firstLeafF (f + 1) ((pe, BTree.node w l r) :: rest) =
              firstLeafF f (rest ++ childEntries pe l r) by simp [firstLeafF, hlr]]
        rw [show bfsListF (f + 1) ((pe, BTree.node w l r) :: rest) =
              pe :: bfsListF f (rest ++ childEntries pe l r) by simp [bfsListF]]
        rw [List.find?_cons_of_neg _ (by simp [hleaf])]
        exact ih _ (entriesValid_push hv)

/-- The first scan of `remove` reports a present node holding the searched
value. -/
theorem findValF_sound {t : BTree} {v : Nat} :
    ∀ (f : Nat) (q : List (List Bool × BTree)) (p : List Bool), EntriesValid t q →
      findValF f q v = some p → getAt t p ≠ BTree.nil ∧ dataAt t p = v := by
  intro f
  induction f with
  | zero => intro q p _ hc; simp [findValF] at hc
  | succ f ih =>
    intro q p hv hr
    match q with
    | [] => simp [findValF] at hr
    | (pe, BTree.nil) :: rest =>
      exact absurd rfl ((hv _ (List.mem_cons_self _ _)).2)
    | (pe, BTree.node w l r) :: rest =>
      by_cases hw : w = v
      · have : pe = p := by simpa [findValF, hw] using hr
        subst this
        have hpe := (hv _ (List.mem_cons_self _ _)).1
        rw [hpe]
        subst hw
        exact ⟨by simp, by simp [dataAt, hpe]⟩
      · exact ih _ p (entriesValid_push hv) (by simpa [findValF, hw] using hr)

/-- The first scan of `remove` finds nothing when the value is absent from all
queued subtrees. -/
theorem findValF_none {v : Nat} :
    ∀ (f : Nat) (q : List (List Bool × BTree)),
      (∀ e ∈ q, containsB e.2 v = false) → findValF f q v = none := by
  intro f
  induction f with
  | zero => intro q _; simp [findValF]
  | succ f ih =>
    intro q hnc
    match q with
    | [] => simp [findValF]
    | (pe, BTree.nil) :: rest =>
      simpa [findValF] using ih rest (fun e he => hnc e (List.mem_cons_of_mem _ he))
    | (pe, BTree.node w l r) :: rest =>
      have hh := hnc _ (List.mem_cons_self _ _)
      have hw : ¬ w = v := by simp [containsB] at hh; tauto
      have hcl : containsB l v = false := by simp [containsB] at hh; tauto
      have hcr : containsB r v = false := by simp [containsB] at hh; tauto
      have hpush : ∀ e ∈ rest ++ childEntries pe l r, containsB e.2 v = false := by
        intro e he
        rcases List.mem_append.mp he with hq | hc
        · exact hnc e (List.mem_cons_of_mem _ hq)
        · rcases childEntries_mem hc with ⟨rfl, _⟩ | ⟨rfl, _⟩
          · exact hcl
          · exact hcr
      simpa [findValF, hw] using ih _ hpush

/-- The `find` scan returns false when the value is absent from all queued
subtrees. -/
theorem findScanF_none {v : Nat} :
    ∀ (f : Nat) (q : List BTree),
      (∀ u ∈ q, containsB u v = false) → findScanF f q v = false := by
  intro f
  induction f with
  | zero => intro q _; simp [findScanF]
  | succ f ih =>
    intro q hnc
    match q with
    | [] => simp [findScanF]
    | BTree.nil :: rest =>
      simpa [findScanF] using ih rest (fun u hu => hnc u (List.mem_cons_of_mem _ hu))
    | BTree.node w l r :: rest =>
      have hh := hnc _ (List.mem_cons_self _ _)
      have hw : ¬ w = v := by simp [containsB] at hh; tauto
      have hcl : containsB l v = false := by simp [containsB] at hh; tauto
      have hcr : containsB r v = false := by simp [containsB] at hh; tauto
      have hpush : ∀ u ∈ rest ++ (if l = BTree.nil then [] else [l]) ++
          (if r = BTree.nil then [] else [r]), containsB u v = false := by
        intro u hu
        rcases List.mem_append.mp hu with hu2 | hr2
        · rcases List.mem_append.mp hu2 with hq | hl2
          · exact hnc u (List.mem_cons_of_mem _ hq)
          · by_cases hl : l = BTree.nil <;> simp [hl] at hl2
            subst hl2; exact hcl
        · by_cases hr : r = BTree.nil <;> simp [hr] at hr2
          subst hr2; exact hcr
      simpa [findScanF, hw] using ih _ hpush


/-! ### The last leaf found by a full level-order scan

The BFS queue of the second `remove` scan always consists of complete sibling
pairs, except that popping the left member of a pair leaves its right sibling
dangling at the front for exactly one step.  From this shape invariant the key
structural fact follows: the last leaf encountered by the scan is either the
root itself or a right child whose left sibling is also a leaf — so deleting
the reported parent's two children always unlinks exactly two leaves. -/

theorem Paired.append_pair {t : BTree} {q : List (List Bool × BTree)}
    (hq : Paired t q) {p : List Bool} {w : Nat} {l r : BTree}
    (hget : getAt t p = BTree.node w l r) (hl : l ≠ BTree.nil) (hr : r ≠ BTree.nil) :
    Paired t (q ++ [(p ++ [false], l), (p ++ [true], r)]) := by
  induction hq with
  | nil => exact Paired.cons p w l r [] hget hl hr Paired.nil
  | cons p2 w2 l2 r2 rest hget2 hl2 hr2 _ ih =>
    exact Paired.cons p2 w2 l2 r2 _ hget2 hl2 hr2 ih

theorem Paired.entriesValid {t : BTree} {q : List (List Bool × BTree)} (hq : Paired t q) :
    EntriesValid t q := by
  induction hq with
  | nil => intro e he; simp at he
  | cons p w l r rest hget hl hr _ ih =>
    intro e he
    rcases he with _ | ⟨_, he⟩
    · exact ⟨by rw [getAt_append, hget]; simp [getAt], hl⟩
    · rcases he with _ | ⟨_, he⟩
      · exact ⟨by rw [getAt_append, hget]; simp [getAt], hr⟩
      · exact ih e he

theorem lastLeafF_nilQueue (f : Nat) (acc : Option (List Bool)) : lastLeafF f [] acc = acc := by
  cases f <;> rfl

/-- Main structural lemma for the second scan of `remove`. -/
theorem lastLeafF_good {t : BTree} (hfull : isFull t = true) :
    ∀ (f : Nat) (q : List (List Bool × BTree)) (acc : Option (List Bool)),
      FuelOK f q → QS t q → q ≠ [] →
      ∃ pr, lastLeafF f q acc = some pr ∧ GoodPr t pr := by
  intro f
  induction f with
  | zero =>
    intro q acc hf
    exact absurd hf (by simp [FuelOK])
  | succ f ih =>
    intro q acc hf hqs hne
    cases hqs with
    | root ht =>
      cases t with
      | nil => exact absurd rfl ht
      | node w l r =>
        by_cases hlr : l = BTree.nil ∧ r = BTree.nil
        · rcases hlr with ⟨rfl, rfl⟩
          refine ⟨[], ?_, rfl, Or.inl rfl⟩
          simp [lastLeafF, childEntries, lastLeafF_nilQueue]
        · have hnn : l ≠ BTree.nil ∧ r ≠ BTree.nil := by
            rcases isFull_node_iff.mp hfull with h2 | h2
            · exact absurd ⟨h2.1, h2.2⟩ hlr
            · exact ⟨h2.1, h2.2.1⟩
          have hce : childEntries ([] : List Bool) l r = [([false], l), ([true], r)] := by
            simp [childEntries, hnn.1, hnn.2]
          have hqs2 : QS (BTree.node w l r) ([] ++ childEntries ([] : List Bool) l r) := by
            rw [hce]
            exact QS.paired _ (by
              simpa using Paired.cons [] w l r [] (by simp) hnn.1 hnn.2 Paired.nil)
          have hne2 : ([] : List (List Bool × BTree)) ++ childEntries ([] : List Bool) l r ≠ [] := by
            rw [hce]; simp
          have hstep := ih _ acc (fuelOK_push hf) hqs2 hne2
          rcases hstep with ⟨pr, hpr, hg⟩
          exact ⟨pr, by simpa [lastLeafF, hlr] using hpr, hg⟩
    | paired q hp =>
      cases hp with
      | nil => exact absurd rfl hne
      | cons p0 w0 l0 r0 rest0 hget hl0 hr0 hrest =>
        have hgetl : getAt t (p0 ++ [false]) = l0 := by
          rw [getAt_append, hget]; simp [getAt]
        cases l0 with
        | nil => exact absurd rfl hl0
        | node w1 l1 r1 =>
          by_cases h1 : l1 = BTree.nil ∧ r1 = BTree.nil
          · have hqs2 : QS t ((p0 ++ [true], r0) :: rest0) :=
              QS.dangling p0 w0 (BTree.node w1 l1 r1) r0 rest0 hget (by simp) hr0 hrest
                (Or.inl (by rw [h1.1, h1.2]; rfl))
            have hstep := ih _ (some (p0 ++ [false])) (fuelOK_tail hf) hqs2 (by simp)
            rcases hstep with ⟨pr, hpr, hg⟩
            refine ⟨pr, ?_, hg⟩
            simpa [lastLeafF, h1, childEntries] using hpr
          · have hnn : l1 ≠ BTree.nil ∧ r1 ≠ BTree.nil := by
              have h3 := isFull_getAt hfull (p0 ++ [false])
              rw [hgetl] at h3
              rcases isFull_node_iff.mp h3 with h2 | h2
              · exact absurd ⟨h2.1, h2.2⟩ h1
              · exact ⟨h2.1, h2.2.1⟩
            have hce : childEntries (p0 ++ [false]) l1 r1 =
                [(p0 ++ [false] ++ [false], l1), (p0 ++ [false] ++ [true], r1)] := by
              simp [childEntries, hnn.1, hnn.2]
            have hqs2 : QS t (((p0 ++ [true], r0) :: rest0) ++
                childEntries (p0 ++ [false]) l1 r1) := by
              rw [hce, List.cons_append]
              exact QS.dangling p0 w0 (BTree.node w1 l1 r1) r0 _ hget (by simp) hr0
                (hrest.append_pair hgetl hnn.1 hnn.2) (Or.inr (by simp))
            have hstep := ih _ acc (fuelOK_push hf) hqs2 (by simp)
            rcases hstep with ⟨pr, hpr, hg⟩
            refine ⟨pr, ?_, hg⟩
            simpa [lastLeafF, h1] using hpr
    | dangling p0 w0 l0 r0 q2 hget hl0 hr0 hp2 hsib =>
      have hgetr : getAt t (p0 ++ [true]) = r0 := by
        rw [getAt_append, hget]; simp [getAt]
      cases r0 with
      | nil => exact absurd rfl hr0
      | node w1 l1 r1 =>
        by_cases h1 : l1 = BTree.nil ∧ r1 = BTree.nil
        · cases q2 with
          | nil =>
            refine ⟨p0 ++ [true], ?_, ?_⟩
            · simp [lastLeafF, h1, childEntries, lastLeafF_nilQueue]
            · refine ⟨by rw [hgetr, h1.1, h1.2]; rfl, Or.inr ⟨p0, rfl, ?_, ?_⟩⟩
              · rw [hget]; simp
              · rw [getAt_append, hget]
                rcases hsib with hsib | hsib
                · simpa [getAt] using hsib
                · exact absurd rfl hsib
          | cons e2 q3 =>
            have hstep := ih _ (some (p0 ++ [true])) (fuelOK_tail hf) (QS.paired _ hp2) (by simp)
            rcases hstep with ⟨pr, hpr, hg⟩
            refine ⟨pr, ?_, hg⟩
            simpa [lastLeafF, h1, childEntries] using hpr
        · have hnn : l1 ≠ BTree.nil ∧ r1 ≠ BTree.nil := by
            have h3 := isFull_getAt hfull (p0 ++ [true])
            rw [hgetr] at h3
            rcases isFull_node_iff.mp h3 with h2 | h2
            · exact absurd ⟨h2.1, h2.2⟩ h1
            · exact ⟨h2.1, h2.2.1⟩
          have hce : childEntries (p0 ++ [true]) l1 r1 =
              [(p0 ++ [true] ++ [false], l1), (p0 ++ [true] ++ [true], r1)] := by
            simp [childEntries, hnn.1, hnn.2]
          have hqs2 : QS t (q2 ++ childEntries (p0 ++ [true]) l1 r1) := by
            rw [hce]
            exact QS.paired _ (hp2.append_pair hgetr hnn.1 hnn.2)
          have hne2 : q2 ++ childEntries (p0 ++ [true]) l1 r1 ≠ [] := by
            rw [hce]; simp
          have hstep := ih _ acc (fuelOK_push hf) hqs2 hne2
          rcases hstep with ⟨pr, hpr, hg⟩
          refine ⟨pr, ?_, hg⟩
          simpa [lastLeafF, h1] using hpr

/-! ### Round-trip facts for the codecs -/

theorem charDigit_digitChar {d : Nat} (h : d < 10) : charDigit (digitChar d) = some d := by
  interval_cases d <;> decide

theorem digitChar_ne_n {d : Nat} (h : d < 10) : digitChar d ≠ 'n' := by
  interval_cases d <;> decide

theorem takeDigits_map_digitChar {ds : List Nat} (h : ∀ d ∈ ds, d < 10) :
    takeDigits (ds.map digitChar) = (ds, []) := by
  induction ds with
  | nil => rfl
  | cons d ds ih =>
    have hd := charDigit_digitChar (h d (by simp))
    simp [takeDigits, hd, ih (fun e he => h e (by simp [he]))]

theorem digitsVal_aux (l : List Nat) (a : Nat) :
    l.foldl (fun a d => a * 10 + d) a = a * 10 ^ l.length + Nat.ofDigits 10 l.reverse := by
  induction l generalizing a with
  | nil => simp [Nat.ofDigits]
  | cons d l ih =>
    rw [List.foldl_cons, ih, List.reverse_cons, Nat.ofDigits_append]
    simp [Nat.ofDigits_singleton]
    ring

theorem digitsVal_eq (ds : List Nat) : digitsVal ds = Nat.ofDigits 10 ds.reverse := by
  simpa [digitsVal] using digitsVal_aux ds 0

theorem digits10_lt (n : Nat) : ∀ d ∈ (Nat.digits 10 n).reverse, d < 10 := by
  intro d hd
  exact Nat.digits_lt_base (by norm_num) (List.mem_reverse.mp hd)

theorem string_data_mk (l : List Char) : (String.mk l).data = l := rfl

theorem tokenValue_natToken (n : Nat) : tokenValue (natToken n) = n := by
  by_cases h0 : n = 0
  · subst h0; rfl
  · simp only [tokenValue, natToken, if_neg h0, string_data_mk]
    rw [takeDigits_map_digitChar (digits10_lt n)]
    rw [digitsVal_eq, List.reverse_reverse, Nat.ofDigits_digits]

theorem natToken_ne_null (n : Nat) : natToken n ≠ "null" := by
  by_cases h0 : n = 0
  · subst h0; decide
  · simp only [natToken, h0, if_neg]
    intro hc
    have hdata : ((Nat.digits 10 n).reverse).map digitChar = ['n', 'u', 'l', 'l'] := by
      have h2 := congrArg String.data hc
      simpa using h2
    cases hl : (Nat.digits 10 n).reverse with
    | nil => rw [hl] at hdata; simp at hdata
    | cons d ds =>
      rw [hl] at hdata
      simp only [List.map_cons, List.cons.injEq] at hdata
      have hd10 : d < 10 := digits10_lt n d (by rw [hl]; simp)
      exact digitChar_ne_n hd10 hdata.1

theorem digitChar_ne_minus {d : Nat} (h : d < 10) : digitChar d ≠ '-' := by
  interval_cases d <;> decide

theorem digitChar_ne_plus {d : Nat} (h : d < 10) : digitChar d ≠ '+' := by
  interval_cases d <;> decide

theorem signSplit_no_sign {c : Char} (cs : List Char) (h1 : c ≠ '-') (h2 : c ≠ '+') :
    signSplit (c :: cs) = (false, c :: cs) := by
  simp [signSplit, h1, h2]

theorem readSizeToks_natToken (n : Nat) (hn : n < 18446744073709551616)
    (rest : List String) : readSizeToks (natToken n :: rest) = ⟨n, false, rest⟩ := by
  by_cases h0 : n = 0
  · subst h0; rfl
  · have hne : (Nat.digits 10 n).reverse ≠ [] := by
      simp [Nat.digits_ne_nil_iff_ne_zero, h0]
    cases hl : (Nat.digits 10 n).reverse with
    | nil => exact absurd hl hne
    | cons d ds =>
      have hd10 : d < 10 := digits10_lt n d (by rw [hl]; simp)
      have hds10 : ∀ e ∈ ds, e < 10 := fun e he => digits10_lt n e (by rw [hl]; simp [he])
      have hdata : (natToken n).data = digitChar d :: ds.map digitChar := by
        simp only [natToken, if_neg h0, string_data_mk, hl, List.map_cons]
      have hsign : signSplit (natToken n).data =
          (false, digitChar d :: ds.map digitChar) := by
        rw [hdata]
        exact signSplit_no_sign _ (digitChar_ne_minus hd10) (digitChar_ne_plus hd10)
      have hall : ∀ e ∈ d :: ds, e < 10 := by
        intro e he
        rcases List.mem_cons.mp he with rfl | he2
        · exact hd10
        · exact hds10 e he2
      have hdig : takeDigits (digitChar d :: ds.map digitChar) = (d :: ds, []) := by
        have h4 := takeDigits_map_digitChar hall
        simpa using h4
      have hval : digitsVal (d :: ds) = n := by
        rw [← hl, digitsVal_eq, List.reverse_reverse, Nat.ofDigits_digits]
      simp [readSizeToks, hsign, hdig, hval, hn]

theorem depth_le_serLen (t : BTree) : depth t ≤ (serializeHelperT t).length := by
  induction t with
  | nil => simp [depth, serializeHelperT]
  | node w l r ihl ihr =>
    simp only [depth, serializeHelperT, List.length_cons, List.length_append]
    omega

theorem dHelperF_roundtrip (t : BTree) :
    ∀ (f : Nat) (rest : List String), depth t < f →
      dHelperF f (serializeHelperT t ++ rest) = (t, rest) := by
  induction t with
  | nil =>
    intro f rest hf
    match f, hf with
    | f + 1, _ => simp [serializeHelperT, dHelperF]
  | node w l r ihl ihr =>
    intro f rest hf
    match f, hf with
    | f + 1, hf =>
      have hdl : depth l < f := by simp only [depth] at hf; omega
      have hdr : depth r < f := by simp only [depth] at hf; omega
      rw [show serializeHelperT (BTree.node w l r) ++ rest =
            natToken w :: (serializeHelperT l ++ (serializeHelperT r ++ rest)) by
          simp [serializeHelperT]]
      simp [dHelperF, natToken_ne_null w, ihl f _ hdl, ihr f _ hdr, tokenValue_natToken]

/-- Text round trip: decoding the emitted token stream rebuilds the same root
and the same size (for any size that fits `size_t`, as every real size
does). -/
theorem deserializeTextT_serializeTextT (s : FBT)
    (hs64 : s.size < 18446744073709551616) :
    deserializeTextT (serializeTextT s) = ⟨s.root, s.size⟩ := by
  unfold serializeTextT deserializeTextT
  rw [readSizeToks_natToken s.size hs64]
  unfold dHelper
  have hd : depth s.root < (serializeHelperT s.root).length + 1 :=
    Nat.lt_succ_of_le (depth_le_serLen s.root)
  have hr := dHelperF_roundtrip s.root ((serializeHelperT s.root).length + 1) [] hd
  rw [List.append_nil] at hr
  simp [hr]

theorem decLE_encLE (w : Nat) : ∀ (n : Nat) (rest : List Nat),
    decLE w (encLE w n ++ rest) = (n % 256 ^ w, rest) := by
  induction w with
  | zero => intro n rest; simp [encLE, decLE, Nat.mod_one]
  | succ w ih =>
    intro n rest
    rw [show encLE (w + 1) n ++ rest = n % 256 :: (encLE w (n / 256) ++ rest) from rfl]
    simp only [decLE, ih (n / 256)]
    rw [show (256 : Nat) ^ (w + 1) = 256 * 256 ^ w by ring, Nat.mod_mul]

theorem depth_le_serBinLen (t : BTree) : depth t ≤ (serializeBinaryHelperT t).length := by
  induction t with
  | nil => simp [depth, serializeBinaryHelperT]
  | node w l r ihl ihr =>
    simp only [depth, serializeBinaryHelperT, List.length_cons, List.length_append]
    omega

theorem dBinHelperF_roundtrip (t : BTree) (hb : valuesBounded t = true) :
    ∀ (f : Nat) (rest : List Nat), depth t < f →
      dBinHelperF f (serializeBinaryHelperT t ++ rest) = (t, rest) := by
  induction t with
  | nil =>
    intro f rest hf
    match f, hf with
    | f + 1, _ => simp [serializeBinaryHelperT, dBinHelperF]
  | node w l r ihl ihr =>
    intro f rest hf
    have hw : w < 4294967296 := by
      simp [valuesBounded] at hb; tauto
    have hbl : valuesBounded l = true := by
      simp [valuesBounded] at hb; tauto
    have hbr : valuesBounded r = true := by
      simp [valuesBounded] at hb; tauto
    match f, hf with
    | f + 1, hf =>
      have hdl : depth l < f := by simp only [depth] at hf; omega
      have hdr : depth r < f := by simp only [depth] at hf; omega
      rw [show serializeBinaryHelperT (BTree.node w l r) ++ rest =
            0 :: (encLE 4 w ++ (serializeBinaryHelperT l ++ (serializeBinaryHelperT r ++ rest))) by
          simp [serializeBinaryHelperT]]
      simp [dBinHelperF, decLE_encLE, Nat.mod_eq_of_lt, hw,
        ihl hbl f _ hdl, ihr hbr f _ hdr]

/-- Binary round trip: decoding the emitted byte stream rebuilds the same root
and the same size. -/
theorem deserializeBinaryT_serializeBinaryT (s : FBT) (hb : valuesBounded s.root = true)
    (hs : s.size < 18446744073709551616) :
    deserializeBinaryT (serializeBinaryT s) = ⟨s.root, s.size⟩ := by
  unfold serializeBinaryT deserializeBinaryT
  have h8 : decLE 8 (encLE 8 s.size ++ serializeBinaryHelperT s.root) =
      (s.size, serializeBinaryHelperT s.root) := by
    rw [decLE_encLE]
    congr 1
    exact Nat.mod_eq_of_lt (by norm_num; omega)
  rw [h8]
  have hd : depth s.root < (serializeBinaryHelperT s.root).length + 1 :=
    Nat.lt_succ_of_le (depth_le_serBinLen s.root)
  have hr := dBinHelperF_roundtrip s.root hb ((serializeBinaryHelperT s.root).length + 1) [] hd
  rw [List.append_nil] at hr
  simp [hr]

/-! ### Wrapper-level facts about the public operations -/

theorem findValuePos_sound {t : BTree} {v : Nat} {pt : List Bool}
    (h : findValuePos t v = some pt) :
    t ≠ BTree.nil ∧ getAt t pt ≠ BTree.nil ∧ dataAt t pt = v := by
  have hne : t ≠ BTree.nil := by
    intro hc
    subst hc
    simp [findValuePos, treeFuel, count, findValF] at h
  have hs := findValF_sound (t := t) (treeFuel t) [([], t)] pt (entriesValid_init hne) h
  exact ⟨hne, hs.1, hs.2⟩

theorem lastLeafPos_good {t : BTree} (hfull : isFull t = true) (hne : t ≠ BTree.nil) :
    ∃ pr, lastLeafPos t = some pr ∧ GoodPr t pr :=
  lastLeafF_good hfull (treeFuel t) [([], t)] none (fuelOK_init t) (QS.root hne) (by simp)

theorem firstLeafPos_spec {t : BTree} (hne : t ≠ BTree.nil) :
    ∃ p, firstLeafPos t = some p ∧ isLeaf (getAt t p) = true ∧
      firstLeafPos t = (bfsPositions t).find? (fun q => isLeaf (getAt t q)) := by
  obtain ⟨p, hp⟩ := firstLeafF_exists (treeFuel t) [([], t)] (fuelOK_init t)
    (by intro e he; simp at he; subst he; exact hne) (by simp)
  refine ⟨p, hp, firstLeafF_sound _ _ p (entriesValid_init hne) hp, ?_⟩
  exact firstLeafF_eq_find _ _ (entriesValid_init hne)

/-- Characterization of `insert` on a nonempty tree. -/
theorem insertT_nonempty {s : FBT} (hne : s.root ≠ BTree.nil) (v : Nat) :
    ∃ p, firstLeafPos s.root = some p ∧ isLeaf (getAt s.root p) = true ∧
      insertT s v = ⟨giveChildren s.root p v, s.size + 2⟩ := by
  obtain ⟨p, hp, hleaf, _⟩ := firstLeafPos_spec hne
  refine ⟨p, hp, hleaf, ?_⟩
  obtain ⟨root, sz⟩ := s
  simp only at hne hp ⊢
  cases root with
  | nil => exact absurd rfl hne
  | node w l r => simp [insertT, hp]

theorem insertT_root_ne_nil (s : FBT) (v : Nat) : (insertT s v).root ≠ BTree.nil := by
  by_cases hne : s.root = BTree.nil
  · obtain ⟨root, sz⟩ := s
    simp only at hne
    subst hne
    simp [insertT]
  · obtain ⟨p, _, _, heq⟩ := insertT_nonempty hne v
    rw [heq]
    exact giveChildren_ne_nil hne p v

theorem insertT_size_nonempty {s : FBT} (hne : s.root ≠ BTree.nil) (v : Nat) :
    (insertT s v).size = s.size + 2 := by
  obtain ⟨p, _, _, heq⟩ := insertT_nonempty hne v
  rw [heq]

theorem isFull_insertT {s : FBT} (h : isFull s.root = true) (v : Nat) :
    isFull (insertT s v).root = true := by
  by_cases hne : s.root = BTree.nil
  · obtain ⟨root, sz⟩ := s
    simp only at hne
    subst hne
    simp [insertT, isFull]
  · obtain ⟨p, _, _, heq⟩ := insertT_nonempty hne v
    rw [heq]
    exact isFull_giveChildren h p v

theorem isFull_removeT {s : FBT} (h : isFull s.root = true) (v : Nat) :
    isFull (removeT s v).root = true := by
  obtain ⟨root, sz⟩ := s
  simp only at h ⊢
  cases root with
  | nil => simpa [removeT] using h
  | node w l r =>
    simp only [removeT]
    cases hfv : findValuePos (BTree.node w l r) v with
    | none => simpa using h
    | some pt =>
      cases hg : getAt (BTree.node w l r) pt with
      | nil => simp only [hg]; simpa using h
      | node w2 l2 r2 =>
        cases l2 with
        | nil =>
          cases r2 with
          | nil =>
            simp only [hg]
            by_cases hpt : pt = []
            · simp [hpt, isFull]
            · simpa [hpt] using isFull_prune h pt.dropLast
          | node w3 l3 r3 => simp only [hg]; simpa using h
        | node w3 l3 r3 =>
          cases r2 with
          | nil => simp only [hg]; simpa using h
          | node w4 l4 r4 =>
            simp only [hg]
            cases hlp : lastLeafPos (BTree.node w l r) with
            | none => simpa using h
            | some pr =>
              simp only [hlp]
              by_cases hpr : pr = pt
              · simpa [hpr] using h
              · by_cases hpr2 : pr = []
                · subst hpr2
                  rw [if_neg hpr]
                  simpa using isFull_setData h pt (dataAt (BTree.node w l r) [])
                · simpa [hpr, hpr2] using
                    isFull_prune (isFull_setData h pt (dataAt (BTree.node w l r) pr)) pr.dropLast

theorem isFull_applyOp {s : FBT} (h : isFull s.root = true) (op : Op) :
    isFull (applyOp s op).root = true := by
  cases op with
  | ins v => exact isFull_insertT h v
  | rem v => exact isFull_removeT h v
  | clr => simp [applyOp, clearT, isFull]

/-! ### Claim theorems -/

/-- C1 (amended): for every sequence of completed public mutations (insert,
remove, clear) starting from the empty tree, after each operation every node
in the tree has 0 or 2 children, i.e. `isFullBinaryTree()` returns true.  (The
original claim's second half — that the `size` field always equals the number
of nodes reachable from `root` — is false; see the counterexample.) -/
theorem c1_full_shape_invariant (ops : List Op) : isFull (runOps ops).root = true := by
  suffices h : ∀ s : FBT, isFull s.root = true → isFull (ops.foldl applyOp s).root = true from
    h emptyFBT rfl
  induction ops with
  | nil => exact fun s hs => hs
  | cons op ops ih => exact fun s hs => ih _ (isFull_applyOp hs op)

/-- C1 counterexample: after the mutation sequence insert 1, insert 2,
insert 3, insert 4, remove 2, remove 2 — all from the empty tree — the `size`
field is 3 while only 1 node is reachable from `root` (the second `remove 2`
hits a leaf whose sibling is an internal node, unlinking 4 nodes but
decrementing `size` by only 2), so "size equals the number of nodes reachable
from root" fails after a completed public mutation. -/
theorem c1_size_counterexample :
    (runOps [Op.ins 1, Op.ins 2, Op.ins 3, Op.ins 4, Op.rem 2, Op.rem 2]).size = 3 ∧
      count (runOps [Op.ins 1, Op.ins 2, Op.ins 3, Op.ins 4, Op.rem 2, Op.rem 2]).root = 1 := by
  decide

/-- C5: `insert(v)` on an empty tree creates a single root node holding `v`
with `size = 1`; on a nonempty tree it attaches exactly two new children —
both holding `v` — to the first node with zero children in level order,
increases `size` by exactly 2, and every other node keeps its value and its
presence. -/
theorem c5_insert_shape (s : FBT) (v : Nat) :
    insertT ⟨BTree.nil, 0⟩ v = ⟨BTree.node v BTree.nil BTree.nil, 1⟩ ∧
    (s.root ≠ BTree.nil →
      ∃ p, (bfsPositions s.root).find? (fun q => isLeaf (getAt s.root q)) = some p ∧
        isLeaf (getAt s.root p) = true ∧
        (insertT s v).root = giveChildren s.root p v ∧
        getAt (insertT s v).root (p ++ [false]) = BTree.node v BTree.nil BTree.nil ∧
        getAt (insertT s v).root (p ++ [true]) = BTree.node v BTree.nil BTree.nil ∧
        (insertT s v).size = s.size + 2 ∧
        ∀ q, q ≠ p ++ [false] → q ≠ p ++ [true] →
          dataAt (insertT s v).root q = dataAt s.root q ∧
            (getAt (insertT s v).root q = BTree.nil ↔ getAt s.root q = BTree.nil)) := by
  refine ⟨rfl, fun hne => ?_⟩
  obtain ⟨p, hp, hleaf, hfind⟩ := firstLeafPos_spec hne
  obtain ⟨p2, hp2, hleaf2, heq⟩ := insertT_nonempty hne v
  rw [hp] at hp2
  injection hp2 with hpp
  subst hpp
  have hgetne : getAt s.root p ≠ BTree.nil := by
    intro hc
    rw [hc] at hleaf
    simp [isLeaf] at hleaf
  refine ⟨p, by rw [← hfind, hp], hleaf, by rw [heq], ?_, ?_, by rw [heq], ?_⟩
  · rw [heq]
    exact (getAt_giveChildren_children hgetne v).1
  · rw [heq]
    exact (getAt_giveChildren_children hgetne v).2
  · intro q h1 h2
    rw [heq]
    exact giveChildren_other hleaf q h1 h2

/-- C5 witness at a concrete input: a one-node tree is nonempty. -/
theorem c5_insert_shape_witness :
    ((⟨BTree.node 1 BTree.nil BTree.nil, 1⟩ : FBT).root ≠ BTree.nil) ∧
      insertT ⟨BTree.nil, 0⟩ 2 = ⟨BTree.node 2 BTree.nil BTree.nil, 1⟩ :=
  ⟨by decide, (c5_insert_shape ⟨BTree.node 1 BTree.nil BTree.nil, 1⟩ 2).1⟩

/-- C6: there is a tree reachable by inserts from empty holding a value `v`
such that `find(v)` is still true immediately after `remove(v)`: after
insert 1, insert 1 the tree holds three copies of 1; removing 1 substitutes a
value in place and another copy of 1 remains discoverable. -/
theorem c6_find_after_remove :
    findT (runOps [Op.ins 1, Op.ins 1]) 1 = true ∧
      findT (removeT (runOps [Op.ins 1, Op.ins 1]) 1) 1 = true := by
  decide

/-- C7: after exactly `k` insert calls on an initially empty tree (whatever
the inserted values), `getSize()` returns 0 when `k = 0` and `1 + 2*(k-1)`
when `k ≥ 1`. -/
theorem c7_size_law (vs : List Nat) :
    getSizeT (vs.foldl insertT emptyFBT) =
      if vs.length = 0 then 0 else 1 + 2 * (vs.length - 1) := by
  cases vs with
  | nil => rfl
  | cons v rest =>
    have key : ∀ (ws : List Nat) (s : FBT), s.root ≠ BTree.nil →
        (ws.foldl insertT s).size = s.size + 2 * ws.length ∧
          (ws.foldl insertT s).root ≠ BTree.nil := by
      intro ws
      induction ws with
      | nil => intro s hs; exact ⟨by simp, hs⟩
      | cons wv ws ih =>
        intro s hs
        have h1 := insertT_size_nonempty hs wv
        have h2 := insertT_root_ne_nil s wv
        have h3 := ih (insertT s wv) h2
        refine ⟨?_, h3.2⟩
        rw [List.foldl_cons, h3.1, h1]
        simp [List.length_cons]
        ring
    have h0 : insertT emptyFBT v = ⟨BTree.node v BTree.nil BTree.nil, 1⟩ := rfl
    have hk := key rest ⟨BTree.node v BTree.nil BTree.nil, 1⟩ (by simp)
    rw [List.foldl_cons, h0]
    simp [getSizeT, hk.1]

/-- C9: `remove(v)` for a value `v` not present in any node raises no error
(it is a total no-op) and leaves the tree unchanged — same nodes, same
values, same `size`, same `isFullBinaryTree()` result — and `find(v)` returns
false rather than failing. -/
theorem c9_remove_absent_noop (s : FBT) (v : Nat) (h : containsB s.root v = false) :
    removeT s v = s ∧ findT s v = false ∧ (removeT s v).size = s.size ∧
      isFull (removeT s v).root = isFull s.root := by
  have hrem : removeT s v = s := by
    obtain ⟨root, sz⟩ := s
    simp only at h
    cases root with
    | nil => rfl
    | node w l r =>
      have hfv : findValuePos (BTree.node w l r) v = none :=
        findValF_none (treeFuel (BTree.node w l r)) [([], BTree.node w l r)]
          (by intro e he; simp at he; subst he; exact h)
      simp [removeT, hfv]
  have hfind : findT s v = false := by
    obtain ⟨root, sz⟩ := s
    simp only at h
    cases root with
    | nil => rfl
    | node w l r =>
      have := findScanF_none (v := v) (treeFuel (BTree.node w l r)) [BTree.node w l r]
        (by intro u hu; simp at hu; subst hu; exact h)
      simpa [findT] using this
  exact ⟨hrem, hfind, by rw [hrem], by rw [hrem]⟩

/-- C9 witness at a concrete input: value 2 is absent from a one-node tree
holding 1. -/
theorem c9_remove_absent_noop_witness :
    containsB (BTree.node 1 BTree.nil BTree.nil) 2 = false ∧
      removeT ⟨BTree.node 1 BTree.nil BTree.nil, 1⟩ 2 = ⟨BTree.node 1 BTree.nil BTree.nil, 1⟩ :=
  ⟨by decide, (c9_remove_absent_noop ⟨BTree.node 1 BTree.nil BTree.nil, 1⟩ 2 (by decide)).1⟩

/-- C2: for every tree satisfying the full-binary-tree invariant (and whose
size and values fit their C++ integer widths, as any `FullBinaryTree<int>`
does), deserializing the output of serializing it yields a tree with the same
`size`, with `isFullBinaryTree()` true, and with `find(v)` unchanged for every
value — independently for the binary and the text encoding. -/
theorem c2_serialize_roundtrip (s : FBT) (hfull : isFull s.root = true)
    (hsz : s.size = count s.root) (hvb : valuesBounded s.root = true)
    (hs64 : s.size < 18446744073709551616) :
    ((deserializeTextT (serializeTextT s)).size = s.size ∧
      isFull (deserializeTextT (serializeTextT s)).root = true ∧
      ∀ v, findT (deserializeTextT (serializeTextT s)) v = findT s v) ∧
    ((deserializeBinaryT (serializeBinaryT s)).size = s.size ∧
      isFull (deserializeBinaryT (serializeBinaryT s)).root = true ∧
      ∀ v, findT (deserializeBinaryT (serializeBinaryT s)) v = findT s v) := by
  have ht := deserializeTextT_serializeTextT s hs64
  have hbn := deserializeBinaryT_serializeBinaryT s hvb hs64
  rw [ht, hbn]
  have hfind : ∀ v, findT ⟨s.root, s.size⟩ v = findT s v := by
    intro v
    obtain ⟨root, sz⟩ := s
    rfl
  exact ⟨⟨rfl, hfull, hfind⟩, ⟨rfl, hfull, hfind⟩⟩

/-- C2 witness at a concrete input: the singleton tree holding 5. -/
theorem c2_serialize_roundtrip_witness :
    isFull (BTree.node 5 BTree.nil BTree.nil) = true ∧
      (deserializeTextT (serializeTextT ⟨BTree.node 5 BTree.nil BTree.nil, 1⟩)).size = 1 :=
  ⟨by decide,
    ((c2_serialize_roundtrip ⟨BTree.node 5 BTree.nil BTree.nil, 1⟩ (by decide) (by decide)
      (by decide) (by decide)).1).1⟩

/-- C10: `deserializeText` takes `size` from the stream header unconditionally
— whenever the first token carries digits parsing as `n` (any `n`
representable in the 8-byte `size_t`), `getSize()` is `n` afterwards,
whatever the rest of the stream holds — and the header is never checked
against the decoded node count: the stream "3 10 null null" yields a tree
whose size field is 3 while only one node is reachable, with no reported
failure. -/
theorem c10_header_size (t0 : String) (rest : List String) (n : Nat)
    (h1 : (takeDigits t0.data).1 ≠ []) (h2 : digitsVal (takeDigits t0.data).1 = n)
    (h3 : n < 18446744073709551616) :
    getSizeT (deserializeTextT (t0 :: rest)) = n ∧
      getSizeT (deserializeTextT ["3", "10", "null", "null"]) = 3 ∧
      count (deserializeTextT ["3", "10", "null", "null"]).root = 1 := by
  refine ⟨?_, by decide, by decide⟩
  cases ht0 : t0.data with
  | nil =>
    rw [ht0] at h1
    simp [takeDigits] at h1
  | cons c cs =>
    rw [ht0] at h1 h2
    cases hcd : charDigit c with
    | none => simp [takeDigits, hcd] at h1
    | some d =>
      have hdigc : c.isDigit = true := by
        by_contra hc
        simp [charDigit, hc] at hcd
      have hc1 : c ≠ '-' := by
        intro hcc
        subst hcc
        exact absurd hdigc (by decide)
      have hc2 : c ≠ '+' := by
        intro hcc
        subst hcc
        exact absurd hdigc (by decide)
      have hsign : signSplit t0.data = (false, c :: cs) := by
        rw [ht0]
        exact signSplit_no_sign _ hc1 hc2
      rcases htd : takeDigits (c :: cs) with ⟨ds, leftover⟩
      rw [htd] at h1 h2
      simp only at h1 h2
      cases ds with
      | nil => exact absurd rfl h1
      | cons d2 ds2 =>
        have hlt : digitsVal (d2 :: ds2) < 18446744073709551616 := by
          rw [h2]; exact h3
        cases leftover with
        | nil => simp [deserializeTextT, getSizeT, readSizeToks, hsign, htd, h2, hlt, h3]
        | cons c2 cs2 =>
          simp [deserializeTextT, getSizeT, readSizeToks, hsign, htd, h2, hlt, h3]

/-- C10 witness at a concrete input: header token "7". -/
theorem c10_header_size_witness :
    (takeDigits "7".data).1 ≠ [] ∧ getSizeT (deserializeTextT ["7", "null"]) = 7 :=
  ⟨by decide, (c10_header_size "7" ["null"] 7 (by decide) (by decide) (by decide)).1⟩

/-- C4 counterexample: deserializing the truncated token stream "3 10 20"
completes without any caller-visible failure (the decoder has no failure
channel: truncated reads simply produce null children) and leaves the target
tree partially populated — size field 3, a two-node non-full tree — rather
than in the cleared state the claim requires. -/
theorem c4_truncated_counterexample :
    deserializeTextT ["3", "10", "20"] =
      ⟨BTree.node 10 (BTree.node 20 BTree.nil BTree.nil) BTree.nil, 3⟩ ∧
      (deserializeTextT ["3", "10", "20"]).root ≠ BTree.nil ∧
      (deserializeTextT ["3", "10", "20"]).size ≠ 0 := by
  decide

/-- C4 (amended): malformed streams do not produce a hard failure.
`deserializeText` always completes: a truncated stream yields a partially
populated (here non-full) tree carrying the header size; an invalid value
token silently decodes as a node with value 0; a signed size header is
accepted, a negative one wrapping modulo `2^64` with no error; an
out-of-range header sets the failbit and stores `ULLONG_MAX`; and whenever
the header extraction does fail, no node is decoded — the root is null and
the size field holds the extraction's stored failure value (so the fully
cleared state only when that value is 0). -/
theorem c4_malformed_stream_semantics :
    (deserializeTextT ["3", "10", "20"]).size = 3 ∧
      isFull (deserializeTextT ["3", "10", "20"]).root = false ∧
      deserializeTextT ["1", "xyz", "null", "null"] =
        ⟨BTree.node 0 BTree.nil BTree.nil, 1⟩ ∧
      deserializeTextT ["-5", "7", "null", "null"] =
        ⟨BTree.node 7 BTree.nil BTree.nil, 18446744073709551611⟩ ∧
      deserializeTextT ["99999999999999999999", "7", "null", "null"] =
        ⟨BTree.nil, 18446744073709551615⟩ ∧
      ∀ toks, (readSizeToks toks).failed = true →
        (deserializeTextT toks).root = BTree.nil ∧
          (deserializeTextT toks).size = (readSizeToks toks).val := by
  refine ⟨by decide, by decide, by decide, by decide, by decide, ?_⟩
  intro toks h
  rcases hsr : readSizeToks toks with ⟨vv, fl, rr⟩
  rw [hsr] at h
  simp only at h
  subst h
  simp [deserializeTextT, hsr]

/-- C4 amended-claim witness: a stream whose header has no digits fails the
extraction and decodes no node. -/
theorem c4_malformed_stream_semantics_witness :
    (readSizeToks ["abc"]).failed = true ∧ (deserializeTextT ["abc"]).root = BTree.nil :=
  ⟨by decide, (c4_malformed_stream_semantics.2.2.2.2.2 ["abc"] (by decide)).1⟩

theorem count_of_isLeaf {u : BTree} (h : isLeaf u = true) : count u = 1 := by
  cases u with
  | nil => simp [isLeaf] at h
  | node w l r => cases l <;> cases r <;> simp [isLeaf] at h <;> simp [count]

theorem isLeaf_iff {u : BTree} :
    isLeaf u = true ↔ ∃ w, u = BTree.node w BTree.nil BTree.nil := by
  cases u with
  | nil => simp [isLeaf]
  | node w l r => cases l <;> cases r <;> simp [isLeaf]

theorem getAt_leaf_cons (w : Nat) (x : Bool) (xs : List Bool) :
    getAt (BTree.node w BTree.nil BTree.nil) (x :: xs) = BTree.nil := by
  cases x <;> simp [getAt, getAt_nil]

/-- C8 (amended): for every tree satisfying the invariant in which the first
level-order occurrence of `v` is a leaf: if that leaf is the sole root,
`remove(v)` deletes that one node and empties the tree with size 0; if it has
a parent, `remove(v)` nulls both of the parent's child pointers — unlinking
the target leaf together with the entire subtree of its sibling — and
decreases the size field by exactly 2; when the sibling is itself a leaf this
deletes exactly 2 nodes.  (The original "deletes exactly 2 nodes"
unconditionally is false when the sibling is internal; see the
counterexample.) -/
theorem c8_remove_leaf (s : FBT) (v : Nat) (pt : List Bool) (w2 : Nat)
    (hfull : isFull s.root = true) (hsz : s.size = count s.root)
    (hfind : findValuePos s.root v = some pt)
    (hleaf : getAt s.root pt = BTree.node w2 BTree.nil BTree.nil) :
    (pt = [] → removeT s v = ⟨BTree.nil, 0⟩ ∧ count s.root = 1) ∧
    (pt ≠ [] → ∃ d : Bool, pt = pt.dropLast ++ [d] ∧
      removeT s v = ⟨prune s.root pt.dropLast, s.size - 2⟩ ∧
      (removeT s v).size + 2 = s.size ∧
      count (removeT s v).root + 1 + count (getAt s.root (pt.dropLast ++ [!d])) =
        count s.root ∧
      (isLeaf (getAt s.root (pt.dropLast ++ [!d])) = true →
        count (removeT s v).root + 2 = count s.root)) := by
  have hne := (findValuePos_sound hfind).1
  obtain ⟨root, sz⟩ := s
  simp only at hfull hsz hfind hleaf hne ⊢
  cases root with
  | nil => exact absurd rfl hne
  | node w l r =>
    constructor
    · intro hpt
      subst hpt
      have hroot : BTree.node w l r = BTree.node w2 BTree.nil BTree.nil := by
        simpa using hleaf
      injection hroot with hw hl hr
      subst hl; subst hr
      constructor
      · simp [removeT, hfind, hleaf]
      · simp [count]
    · intro hpt
      have hsplit : pt.dropLast ++ [pt.getLast hpt] = pt :=
        List.dropLast_append_getLast hpt
      have heq : removeT ⟨BTree.node w l r, sz⟩ v =
          ⟨prune (BTree.node w l r) pt.dropLast, sz - 2⟩ := by
        simp only [removeT, hfind, hleaf]
        rw [if_neg hpt]
      have hcp := count_prune (BTree.node w l r) pt.dropLast
      have hkey : count (prune (BTree.node w l r) pt.dropLast) + 1 +
          count (getAt (BTree.node w l r) (pt.dropLast ++ [!pt.getLast hpt])) =
            count (BTree.node w l r) := by
        cases hd : pt.getLast hpt
        · have h1 : getAt (BTree.node w l r) (pt.dropLast ++ [false]) =
              BTree.node w2 BTree.nil BTree.nil := by
            rw [← hd, hsplit]; exact hleaf
          rw [h1, show count (BTree.node w2 BTree.nil BTree.nil) = 1 from rfl] at hcp
          simp only [hd, Bool.not_false]
          omega
        · have h1 : getAt (BTree.node w l r) (pt.dropLast ++ [true]) =
              BTree.node w2 BTree.nil BTree.nil := by
            rw [← hd, hsplit]; exact hleaf
          rw [h1, show count (BTree.node w2 BTree.nil BTree.nil) = 1 from rfl] at hcp
          simp only [hd, Bool.not_true]
          omega
      have hprune_pos : 1 ≤ count (prune (BTree.node w l r) pt.dropLast) := by
        cases hpp : prune (BTree.node w l r) pt.dropLast with
        | nil => exact absurd hpp (prune_ne_nil (by simp) _)
        | node a b c => simp [count]; omega
      have hsz2 : 2 ≤ sz := by
        rw [hsz]
        omega
      refine ⟨pt.getLast hpt, hsplit.symm, heq, ?_, ?_, ?_⟩
      · rw [heq]
        simp only
        omega
      · rw [heq]
        simp only
        exact hkey
      · intro hsib
        have hs1 := count_of_isLeaf hsib
        rw [heq]
        simp only
        omega

/-- C8 counterexample: the tree `1(4(3,3),2)` with size field 5 satisfies the
invariant and the first level-order occurrence of 2 is a leaf with a parent,
but `remove(2)` unlinks 4 nodes (the leaf and its internal sibling's whole
subtree), not exactly 2: the reachable count drops from 5 to 1 while the size
field drops by 2. -/
theorem c8_remove_leaf_counterexample :
    isFull (BTree.node 1 (BTree.node 4 (BTree.node 3 BTree.nil BTree.nil)
        (BTree.node 3 BTree.nil BTree.nil)) (BTree.node 2 BTree.nil BTree.nil)) = true ∧
    count (BTree.node 1 (BTree.node 4 (BTree.node 3 BTree.nil BTree.nil)
        (BTree.node 3 BTree.nil BTree.nil)) (BTree.node 2 BTree.nil BTree.nil)) = 5 ∧
    findValuePos (BTree.node 1 (BTree.node 4 (BTree.node 3 BTree.nil BTree.nil)
        (BTree.node 3 BTree.nil BTree.nil)) (BTree.node 2 BTree.nil BTree.nil)) 2 =
      some [true] ∧
    isLeaf (getAt (BTree.node 1 (BTree.node 4 (BTree.node 3 BTree.nil BTree.nil)
        (BTree.node 3 BTree.nil BTree.nil)) (BTree.node 2 BTree.nil BTree.nil)) [true]) =
      true ∧
    count (removeT ⟨BTree.node 1 (BTree.node 4 (BTree.node 3 BTree.nil BTree.nil)
        (BTree.node 3 BTree.nil BTree.nil)) (BTree.node 2 BTree.nil BTree.nil), 5⟩ 2).root =
      1 ∧
    (removeT ⟨BTree.node 1 (BTree.node 4 (BTree.node 3 BTree.nil BTree.nil)
        (BTree.node 3 BTree.nil BTree.nil)) (BTree.node 2 BTree.nil BTree.nil), 5⟩ 2).size =
      3 := by
  decide

/-- C8 witness at a concrete input: removing 2 from the tree `1(2,2)` of size
3 — the first occurrence of 2 is the left leaf. -/
theorem c8_remove_leaf_witness :
    removeT ⟨BTree.node 1 (BTree.node 2 BTree.nil BTree.nil)
        (BTree.node 2 BTree.nil BTree.nil), 3⟩ 2 =
      ⟨prune (BTree.node 1 (BTree.node 2 BTree.nil BTree.nil)
        (BTree.node 2 BTree.nil BTree.nil)) [], 1⟩ := by
  have h := (c8_remove_leaf ⟨BTree.node 1 (BTree.node 2 BTree.nil BTree.nil)
      (BTree.node 2 BTree.nil BTree.nil), 3⟩ 2 [false] 2 (by decide) (by decide)
      (by decide) (by decide)).2 (by decide)
  obtain ⟨d, -, heq, -, -, -⟩ := h
  exact heq

/-- C3: for every nonempty tree satisfying the invariant in which the first
level-order occurrence of `v` is an internal node (2 children), `remove(v)`
performs a second full level-order scan, overwrites the target node's value in
place with the value of the last leaf encountered in that scan (the target
node itself is not unlinked), deletes that last leaf and its sibling (their
parent's two children, which both become null), and decreases both the size
field and the reachable node count by exactly 2. -/
theorem c3_remove_internal (s : FBT) (v : Nat) (pt : List Bool) (w2 : Nat) (l2 r2 : BTree)
    (hfull : isFull s.root = true) (hsz : s.size = count s.root)
    (hfind : findValuePos s.root v = some pt)
    (htgt : getAt s.root pt = BTree.node w2 l2 r2)
    (hl2 : l2 ≠ BTree.nil) (hr2 : r2 ≠ BTree.nil) :
    ∃ pr, lastLeafPos s.root = some pr ∧ pr ≠ [] ∧
      dataAt (removeT s v).root pt = dataAt s.root pr ∧
      getAt (removeT s v).root pt ≠ BTree.nil ∧
      (∃ wp, getAt (removeT s v).root pr.dropLast = BTree.node wp BTree.nil BTree.nil) ∧
      count (removeT s v).root + 2 = count s.root ∧
      (removeT s v).size + 2 = s.size := by
  have hne := (findValuePos_sound hfind).1
  obtain ⟨root, sz⟩ := s
  simp only at hfull hsz hfind htgt hne ⊢
  obtain ⟨pr, hlp, hprleaf, hgood⟩ := lastLeafPos_good hfull hne
  have hprne : pr ≠ [] := by
    intro hc
    subst hc
    obtain ⟨wr, hwr⟩ := isLeaf_iff.mp hprleaf
    simp only [getAt_nilPos] at hwr
    rw [hwr] at htgt
    cases pt with
    | nil =>
      simp only [getAt_nilPos] at htgt
      injection htgt with hx hy hz
      exact hl2 hy.symm
    | cons x xs =>
      rw [getAt_leaf_cons] at htgt
      exact BTree.noConfusion htgt
  obtain ⟨pp, hpreq, hppne, hsibleaf⟩ := hgood.resolve_left hprne
  have hprnept : pr ≠ pt := by
    intro hc
    rw [hc, htgt] at hprleaf
    obtain ⟨wr, hwr⟩ := isLeaf_iff.mp hprleaf
    injection hwr with hx hy hz
    exact hl2 hy
  have hprAsLeaf : isLeaf (getAt root (pp ++ [true])) = true := by
    rw [← hpreq]; exact hprleaf
  have hppd : pr.dropLast = pp := by
    rw [hpreq, List.dropLast_concat]
  cases l2 with
  | nil => exact absurd rfl hl2
  | node a1 b1 c1 =>
    cases r2 with
    | nil => exact absurd rfl hr2
    | node a2 b2 c2 =>
      cases root with
      | nil => exact absurd rfl hne
      | node w l r =>
        have heq : removeT ⟨BTree.node w l r, sz⟩ v =
            ⟨prune (setData (BTree.node w l r) pt
              (dataAt (BTree.node w l r) pr)) pr.dropLast, sz - 2⟩ := by
          simp only [removeT, hfind, htgt, hlp]
          rw [if_neg hprnept, if_neg hprne]
        have hcond : ∀ (d : Bool) (rest2 : List Bool), pt ≠ pp ++ d :: rest2 := by
          intro d rest2 hc
          have hstep : getAt (BTree.node w l r) pt =
              getAt (getAt (BTree.node w l r) (pp ++ [d])) rest2 := by
            rw [hc, show pp ++ d :: rest2 = (pp ++ [d]) ++ rest2 by simp, getAt_append]
          have hdleaf : isLeaf (getAt (BTree.node w l r) (pp ++ [d])) = true := by
            cases d
            · exact hsibleaf
            · exact hprAsLeaf
          obtain ⟨wd, hwd⟩ := isLeaf_iff.mp hdleaf
          rw [hwd] at hstep
          cases rest2 with
          | nil =>
            simp only [getAt_nilPos] at hstep
            rw [htgt] at hstep
            injection hstep with hx hy hz
            exact BTree.noConfusion hy
          | cons x xs =>
            rw [getAt_leaf_cons] at hstep
            rw [htgt] at hstep
            exact BTree.noConfusion hstep
        have htgtne : getAt (BTree.node w l r) pt ≠ BTree.nil := by
          rw [htgt]
          exact fun hcc => BTree.noConfusion hcc
        have hct1 : count (setData (BTree.node w l r) pt
            (dataAt (BTree.node w l r) pr)) = count (BTree.node w l r) :=
          count_setData _ _ _
        have hcp := count_prune (setData (BTree.node w l r) pt
          (dataAt (BTree.node w l r) pr)) pp
        have hcF := count_getAt_setData (BTree.node w l r) pt (pp ++ [false])
          (dataAt (BTree.node w l r) pr)
        have hcT := count_getAt_setData (BTree.node w l r) pt (pp ++ [true])
          (dataAt (BTree.node w l r) pr)
        have hlf : count (getAt (BTree.node w l r) (pp ++ [false])) = 1 :=
          count_of_isLeaf hsibleaf
        have hlt : count (getAt (BTree.node w l r) (pp ++ [true])) = 1 :=
          count_of_isLeaf hprAsLeaf
        have hpres := prune_preserve (t := setData (BTree.node w l r) pt
          (dataAt (BTree.node w l r) pr)) (p := pp) (q := pt) hcond
        have hdset : dataAt (setData (BTree.node w l r) pt
            (dataAt (BTree.node w l r) pr)) pt = dataAt (BTree.node w l r) pr :=
          dataAt_setData_self htgtne _
        refine ⟨pr, hlp, hprne, ?_, ?_, ?_, ?_, ?_⟩
        · rw [heq]
          simp only
          rw [hppd, hpres.1, hdset]
        · rw [heq]
          simp only
          rw [hppd]
          intro hcc
          exact htgtne (getAt_setData_eq_nil_iff.mp (hpres.2.mp hcc))
        · rw [heq]
          simp only
          rw [hppd]
          refine getAt_prune_self ?_
          intro hcc
          exact hppne (getAt_setData_eq_nil_iff.mp hcc)
        · rw [heq]
          simp only
          rw [hppd]
          omega
        · rw [heq]
          simp only
          have : 2 ≤ sz := by
            rw [hsz]
            omega
          omega

/-- C3 witness at a concrete input: removing 1 from the tree `1(2,2)` of size
3 — the first occurrence of 1 is the internal root. -/
theorem c3_remove_internal_witness :
    ∃ pr, lastLeafPos (BTree.node 1 (BTree.node 2 BTree.nil BTree.nil)
        (BTree.node 2 BTree.nil BTree.nil)) = some pr ∧ pr ≠ [] ∧
      count (removeT ⟨BTree.node 1 (BTree.node 2 BTree.nil BTree.nil)
        (BTree.node 2 BTree.nil BTree.nil), 3⟩ 1).root + 2 = 3 := by
  obtain ⟨pr, h1, h2, -, -, -, h6, -⟩ :=
    c3_remove_internal ⟨BTree.node 1 (BTree.node 2 BTree.nil BTree.nil)
      (BTree.node 2 BTree.nil BTree.nil), 3⟩ 1 [] 1 (BTree.node 2 BTree.nil BTree.nil)
      (BTree.node 2 BTree.nil BTree.nil) (by decide) (by decide) (by decide) (by decide)
      (by decide) (by decide)
  exact ⟨pr, h1, h2, h6⟩
